import Mathlib

set_option maxRecDepth 20000

/-!
Verification development for the multi-agent planning command of the
repository (`packages/cli/src/ui/commands/planCommand.ts`).

Strings from the TypeScript source are modelled as Lean `String`s, with the
scanning primitives working over `List Char`.  `JSON.parse` is an external
library function; it is modelled throughout as an abstract parameter
`jparse : String -> Option JsonValue` (a parse failure, i.e. an exception in
JavaScript, is `none`).  Machine-level caveats that no claim depends on are
recorded in doc comments where they occur.
-/

/-- Characters matched by the JavaScript regular-expression class `\s`
(ECMA-262 WhiteSpace and LineTerminator code points). -/
def jsWS (c : Char) : Bool :=
  c = ' ' || c = '\t' || c = '\n' || c = '\r' || c = '\x0b' || c = '\x0c' ||
  c = '\u00A0' || c = '\u1680' || ('\u2000' ≤ c && c ≤ '\u200A') ||
  c = '\u2028' || c = '\u2029' || c = '\u202F' || c = '\u205F' ||
  c = '\u3000' || c = '\uFEFF'

/-- Strip the characters of `jsWS` from both ends of a character list
(the effect of the greedy `\s*` groups surrounding the capture in the
fenced-code-block regular expression of `safeParseJSON`). -/
def trimJs (s : List Char) : List Char :=
  ((s.dropWhile jsWS).reverse.dropWhile jsWS).reverse

/-- Split a character list at the first occurrence of three consecutive
backticks, returning the part before the backticks and the part after them;
`none` when no such occurrence exists. -/
def splitTicks : List Char → Option (List Char × List Char)
  | '\x60' :: '\x60' :: '\x60' :: t => some ([], t)
  | c :: t =>
    match splitTicks t with
    | some (p, r) => some (c :: p, r)
    | none => none
  | [] => none

/-- The capture group of the source regular expression
matching a triple-backtick fenced block with an optional `json` tag:
take the text after the first triple backtick, drop a literal `json` tag if
present, and return the whitespace-trimmed text up to the next triple
backtick.  Returns `none` exactly when the regular expression does not
match (fewer than two triple-backtick markers). -/
def fencedCapture (s : List Char) : Option (List Char) :=
  match splitTicks s with
  | none => none
  | some (_, afterOpen) =>
    let body := if ['j', 's', 'o', 'n'].isPrefixOf afterOpen then afterOpen.drop 4 else afterOpen
    match splitTicks body with
    | none => none
    | some (content, _) => some (trimJs content)

/-- Index of the first character satisfying `p`, as in
`String.prototype.search` with a character class. -/
def firstIdxP (p : Char → Bool) : List Char → Option Nat
  | [] => none
  | c :: t => if p c then some 0 else (firstIdxP p t).map (· + 1)

/-- Index of the last occurrence of `ch`, as in
`String.prototype.lastIndexOf` (with `none` for `-1`). -/
def lastIdxOf (ch : Char) : List Char → Option Nat
  | [] => none
  | c :: t =>
    match lastIdxOf ch t with
    | some j => some (j + 1)
    | none => if c = ch then some 0 else none

/-- Opening JSON delimiters, the character class of `text.search(/[{[]/)`. -/
def isOpenBr (c : Char) : Bool := c = '\x7b' || c = '['

/-- Model of `text.substring(i, j + 1)`. -/
def sliceCl (s : List Char) (i j : Nat) : List Char := (s.take (j + 1)).drop i

/-- Strategy three of `safeParseJSON` as the source writes it: first opening
delimiter, `lastIndexOf` of the matching closer over the whole text, guarded
by `lastClose > firstOpen`. -/
def bracketSlice (s : List Char) : Option (List Char) :=
  match firstIdxP isOpenBr s with
  | none => none
  | some i =>
    let closer : Char := if s.getD i ' ' = '[' then ']' else '\x7d'
    match lastIdxOf closer s with
    | none => none
    | some j => if i < j then some (sliceCl s i j) else none

/-- Strategy three as the specification words it: first opening delimiter,
then the last occurrence of the matching closer in the remaining text after
the opener. -/
def bracketSliceSpec (s : List Char) : Option (List Char) :=
  match firstIdxP isOpenBr s with
  | none => none
  | some i =>
    let closer : Char := if s.getD i ' ' = '[' then ']' else '\x7d'
    match lastIdxOf closer (s.drop (i + 1)) with
    | none => none
    | some j => some (sliceCl s i (i + 1 + j))

/-- `safeParseJSON`, the structured-text extractor of the source, generic in
the parsed type exactly as the TypeScript generic is: `parse` models
`JSON.parse` at the instantiating type; `none` models a thrown exception,
which the source swallows.  The shared fall-through to strategy three.  -/
def safeParseTail {α : Type} (parse : String → Option α) (text : String) : Option α :=
  match bracketSlice text.data with
  | some sub => parse (String.mk sub)
  | none => none

/-- The extractor itself: try the whole text, then the first fenced code
block, then the outermost-delimiter slice; the function is total (never
throws) and yields `none` only when all three strategies fail. -/
def safeParseJSON {α : Type} (parse : String → Option α) (text : String) : Option α :=
  match parse text with
  | some v => some v
  | none =>
    match fencedCapture text.data with
    | some content =>
      match parse (String.mk content) with
      | some v => some v
      | none => safeParseTail parse text
    | none => safeParseTail parse text

/-- Strategy (a) of the specification: parse the entire text. -/
def extractWhole {α : Type} (parse : String → Option α) (text : String) : Option α :=
  parse text

/-- Strategy (b) of the specification: parse the content of the first
triple-backtick fenced code block (the optional recognised language tag is
`json`, the one the source regular expression strips). -/
def extractFenced {α : Type} (parse : String → Option α) (text : String) : Option α :=
  (fencedCapture text.data).bind (fun c => parse (String.mk c))

/-- Strategy (c) of the specification: parse the slice from the first
opening delimiter to the last matching closer occurring after it. -/
def extractBracketed {α : Type} (parse : String → Option α) (text : String) : Option α :=
  (bracketSliceSpec text.data).bind (fun c => parse (String.mk c))

/-- The specification-side extractor: the three independent strategies tried
in order, stopping at the first success. -/
def extractorSpec {α : Type} (parse : String → Option α) (text : String) : Option α :=
  ((extractWhole parse text).orElse fun _ =>
    extractFenced parse text).orElse fun _ => extractBracketed parse text

/-- Match one pattern character of a substitution key against a text
character.  `buildPrompt` builds its regular expression by splicing the raw
key between double braces, so a `.` in a key (as in `persona.name`) is the
regular-expression wildcard: it matches every character except a line
terminator.  All other key characters used by the source are literals. -/
def dotMatch (k c : Char) : Bool :=
  if k = '.' then !(c = '\n' || c = '\r' || c = '\u2028' || c = '\u2029') else k = c

/-- Match the key pattern character-by-character at the head of `s`,
returning the consumed text and the remainder. -/
def matchChars : List Char → List Char → Option (List Char × List Char)
  | [], s => some ([], s)
  | _ :: _, [] => none
  | k :: kt, c :: ct =>
    if dotMatch k c then (matchChars kt ct).map (fun pr => (c :: pr.1, pr.2)) else none

/-- Try to match the whole pattern of the substitution regular expression
(double open brace, the key, double close brace) at the head of `s`; on
success return the full matched text and the remainder of `s`. -/
def matchKeyAt (key s : List Char) : Option (List Char × List Char) :=
  match s with
  | '\x7b' :: '\x7b' :: rest =>
    match matchChars key rest with
    | some (mid, rest2) =>
      match rest2 with
      | '\x7d' :: '\x7d' :: tail =>
        some ('\x7b' :: '\x7b' :: (mid ++ ['\x7d', '\x7d']), tail)
      | _ => none
    | none => none
  | _ => none

/-- GetSubstitution of ECMA-262 for a replacement string on a pattern with
no capture groups: dollar-dollar yields a dollar, dollar-ampersand the
matched text, dollar-backtick the part of the subject before the match,
dollar-apostrophe the part after it; everything else is literal. -/
def expandDollar : List Char → List Char → List Char → List Char → List Char
  | [], _, _, _ => []
  | [c], _, _, _ => [c]
  | c :: d :: t, pre, m, post =>
    if c = '$' then
      if d = '$' then '$' :: expandDollar t pre m post
      else if d = '&' then m ++ expandDollar t pre m post
      else if d = '\x60' then pre ++ expandDollar t pre m post
      else if d = '\x27' then post ++ expandDollar t pre m post
      else c :: expandDollar (d :: t) pre m post
    else c :: expandDollar (d :: t) pre m post

/-- One global-replace pass of `result.replace(new RegExp(..., g), value)`:
scan left to right, replacing each non-overlapping match of the key pattern
by the (dollar-expanded) value.  `pre` accumulates the consumed part of the
subject; the fuel argument is an upper bound on the number of scan steps,
each of which consumes at least one subject character. -/
def jsReplaceAux (key value : List Char) : Nat → List Char → List Char → List Char
  | 0, _, rest => rest
  | _ + 1, _, [] => []
  | f + 1, pre, c :: rest =>
    match matchKeyAt key (c :: rest) with
    | some (m, tail) =>
      expandDollar value pre m tail ++ jsReplaceAux key value f (pre ++ m) tail
    | none => c :: jsReplaceAux key value f (pre ++ [c]) rest

/-- Global replacement of the double-braced key by the value, as one
iteration of the substitution loop in `buildPrompt` performs it. -/
def jsReplace (key value s : List Char) : List Char :=
  jsReplaceAux key value s.length [] s

/-- Recognise the cleanup pattern of `buildPrompt` (double open brace, a
non-empty run of characters other than a close brace, double close brace)
at the head of `s`, returning the remainder after the match. -/
def placeholderSplit (s : List Char) : Option (List Char) :=
  match s with
  | '\x7b' :: '\x7b' :: rest =>
    match rest.takeWhile (fun c => c ≠ '\x7d'), rest.dropWhile (fun c => c ≠ '\x7d') with
    | [], _ => none
    | _ :: _, '\x7d' :: '\x7d' :: tail => some tail
    | _ :: _, _ => none
  | _ => none

/-- The cleanup pass of `buildPrompt`: one left-to-right global-replace of
every remaining placeholder by the empty string.  Fuel as in
`jsReplaceAux`. -/
def stripPHAux : Nat → List Char → List Char
  | 0, s => s
  | _ + 1, [] => []
  | f + 1, c :: rest =>
    match placeholderSplit (c :: rest) with
    | some tail => stripPHAux f tail
    | none => c :: stripPHAux f rest

/-- Delete every placeholder found by a single left-to-right scan. -/
def stripPH (s : List Char) : List Char := stripPHAux s.length s

/-- The sequential substitution loop of `buildPrompt`: fold the variable
map in entry order (JavaScript object-literal insertion order), replacing
each key globally in the accumulated result. -/
def substAll (vars : List (String × String)) (template : String) : List Char :=
  vars.foldl (fun acc kv => jsReplace kv.1.data kv.2.data acc) template.data

/-- `buildPrompt` of the source: substitute every mapped placeholder, then
remove remaining template variables with one global-replace pass. -/
def buildPrompt (template : String) (vars : List (String × String)) : String :=
  String.mk (stripPH (substAll vars template))

/-- Does the text contain, at any position, a substring matching the
placeholder pattern of the cleanup regular expression? -/
def hasPlaceholder : List Char → Bool
  | [] => false
  | c :: rest => (placeholderSplit (c :: rest)).isSome || hasPlaceholder rest

/-- Does the text contain, at any position, a match of the substitution
pattern for the given key? -/
def hasKeyMatch (key : List Char) : List Char → Bool
  | [] => false
  | c :: rest => (matchKeyAt key (c :: rest)).isSome || hasKeyMatch key rest

/-- Well-bracketed shape: every open brace starts a well-formed placeholder
(and the text between placeholders is free of open braces).  Texts of this
shape are the ones on which the single cleanup pass provably removes every
placeholder. -/
def cleanShapeAux : Nat → List Char → Bool
  | 0, s => s.isEmpty
  | _ + 1, [] => true
  | f + 1, c :: rest =>
    if c = '\x7b' then
      match placeholderSplit (c :: rest) with
      | some tail => cleanShapeAux f tail
      | none => false
    else cleanShapeAux f rest

/-- Decidable entry point for `cleanShapeAux`. -/
def cleanShape (s : List Char) : Bool := cleanShapeAux s.length s

/-- A double open brace, written once so that string literals can stay free
of brace characters. -/
def ob : String := String.mk ['\x7b', '\x7b']

/-- A double close brace. -/
def cb : String := String.mk ['\x7d', '\x7d']

/-- JSON values as `JSON.parse` produces them.  Numbers are carried as their
raw source text: the development never computes with them, which keeps
JavaScript floating-point arithmetic out of the model. -/
inductive JsonValue where
  | jnull : JsonValue
  | jbool : Bool → JsonValue
  | jnum : String → JsonValue
  | jstr : String → JsonValue
  | jarr : List JsonValue → JsonValue
  | jobj : List (String × JsonValue) → JsonValue
deriving Inhabited

/-- Property lookup on a parsed JSON object.  `JSON.parse` assigns
duplicate keys in source order, so the last binding wins. -/
def lookupLast (fs : List (String × JsonValue)) (k : String) : Option JsonValue :=
  match fs with
  | [] => none
  | kv :: t =>
    match lookupLast t k with
    | some v => some v
    | none => if kv.1 = k then some kv.2 else none

/-- Read a string-valued field of a parsed JSON object; `none` when the
value is not an object, the field is absent, or its value is not a string
(the shape checks the source performs with `typeof`). -/
def jfieldStr (j : JsonValue) (k : String) : Option String :=
  match j with
  | JsonValue.jobj fs =>
    match lookupLast fs k with
    | some (JsonValue.jstr s) => some s
    | _ => none
  | _ => none

/-- A persona record of `personas.json` (`PersonaDefinition` in the
source). -/
structure PersonaDefinition where
  id : String
  name : String
  description : String
  expertise : List String
  focus_areas : List String
  tone : String
deriving DecidableEq, Inhabited

/-- A selected persona (`Persona` in the source); `id` is present only on
the catalog path. -/
structure Persona where
  name : String
  description : String
  id : Option String := none
deriving DecidableEq, Inhabited

/-- A plan held in the current plan set. -/
structure Plan where
  agentName : String
  content : String
deriving DecidableEq, Inhabited

/-- A vote cast in the voting phase. -/
structure Vote where
  voterName : String
  votedFor : String
  reason : String
deriving DecidableEq, Inhabited

/-- ASCII model of `String.prototype.toLowerCase` (the source compares
ASCII persona names and ids; the full Unicode case map is outside the
model). -/
def lowerStr (s : String) : String := String.mk (s.data.map Char.toLower)

/-- One pass of `replace(/\s+/g, '-')`: each maximal whitespace run becomes
a single dash.  The boolean records whether the scan is inside a run. -/
def collapseWS : Bool → List Char → List Char
  | _, [] => []
  | inRun, c :: rest =>
    if jsWS c then
      (if inRun then collapseWS true rest else '-' :: collapseWS true rest)
    else c :: collapseWS false rest

/-- `name.replace(/\s+/g, '-')` of the partial-match branch. -/
def wsToDash (s : String) : String := String.mk (collapseWS false s.data)

/-- Substring containment, as `String.prototype.includes`. -/
def containsSubstr (s sub : List Char) : Bool :=
  match s with
  | [] => sub.isEmpty
  | c :: t => sub.isPrefixOf (c :: t) || containsSubstr t sub

/-- `a.includes(b)` on strings. -/
def jsIncludes (a b : String) : Bool := containsSubstr a.data b.data

/-- `getPersonaByName`: exact name match, then case-insensitive match, then
the partial id-based match of the source. -/
def getPersonaByName (catalog : List PersonaDefinition) (name : String) :
    Option PersonaDefinition :=
  match catalog.find? (fun p => p.name = name) with
  | some p => some p
  | none =>
    match catalog.find? (fun p => lowerStr p.name = lowerStr name) with
    | some p => some p
    | none =>
      catalog.find? (fun p =>
        jsIncludes (lowerStr name) (lowerStr p.id) ||
        jsIncludes (lowerStr p.id) (wsToDash (lowerStr name)))

/-- JavaScript `s || d` for strings: the empty string is falsy. -/
def jsOr (s d : String) : String := if s = "" then d else s

/-- JavaScript `o || d` where `o` may be `undefined`. -/
def jsOrOpt (o : Option String) (d : String) : String :=
  match o with
  | some s => jsOr s d
  | none => d

/-- The catalog path of `generatePersonas`: the shuffled catalog cut to
`Math.min(count, length)` entries, mapped to `Persona` records. -/
def selectedFromCatalog (shuffled : List PersonaDefinition) (count : Nat) : List Persona :=
  (shuffled.take (min count shuffled.length)).map fun p =>
    ⟨p.name, p.description, some p.id⟩

/-- The synthetic-persona fallback of `generatePersonas`:
`Agent_1 .. Agent_count` with templated descriptions. -/
def fallbackPersonas (count : Nat) : List Persona :=
  (List.range count).map fun i =>
    ⟨"Agent_" ++ toString (i + 1),
     "An expert agent focused on aspect " ++ toString (i + 1) ++ " of the problem.", none⟩

/-- Conversion of one parsed array element to a `Persona`.  The source
performs no validation (a plain cast); elements whose `name` or
`description` is not a string are modelled by the sentinel `"undefined"`
(the development only ever evaluates this on well-formed elements — the
raw dynamic value a cast would carry is outside the model). -/
def personaOfJson (j : JsonValue) : Persona :=
  ⟨(jfieldStr j "name").getD "undefined", (jfieldStr j "description").getD "undefined", none⟩

/-- `generatePersonas` of the source.  `predefined` is the content of
`personas.json` (empty when the file is missing or empty, the two cases the
source folds together), `shuffled` stands for the result of the
`Math.random` shuffle of that catalog, and `fullText` is the accumulated
response of the persona-generation call on the fallback path.  The function
is total: it never fails. -/
def generatePersonas (predefined shuffled : List PersonaDefinition)
    (jparse : String → Option JsonValue) (fullText : String) (count : Nat) : List Persona :=
  if predefined.length > 0 then selectedFromCatalog shuffled count
  else
    match safeParseJSON jparse fullText with
    | some (JsonValue.jarr xs) => xs.map personaOfJson
    | _ => fallbackPersonas count

/-- Number of votes cast for `name` (case-sensitive exact match). -/
def countVotes (votes : List Vote) (name : String) : Nat :=
  (votes.filter fun v => v.votedFor = name).length

/-- The own property names of `Object.prototype` whose values are
functions.  The `voteCounts` of the source is a plain object literal, so a
key lookup that misses its own properties continues into
`Object.prototype`; for these keys the lookup yields a truthy inherited
function. -/
def protoFns : List String :=
  ["constructor", "hasOwnProperty", "isPrototypeOf", "propertyIsEnumerable",
   "toLocaleString", "toString", "valueOf", "__defineGetter__",
   "__defineSetter__", "__lookupGetter__", "__lookupSetter__"]

/-- A count stored in the tally object: a JavaScript number that is either
an actual natural count or `NaN` (`none`, the result of incrementing an
inherited function). -/
def jsSucc : Option Nat → Option Nat
  | none => none
  | some n => some (n + 1)

/-- Truthiness of a stored count: `NaN` and `0` are falsy. -/
def jsTruthyNum : Option Nat → Bool
  | none => false
  | some n => n != 0

/-- Own-property read of the tally object (own properties in insertion
order, keys unique). -/
def getOwn (m : List (String × Option Nat)) (k : String) : Option (Option Nat) :=
  (m.find? fun e => e.1 = k).map (·.2)

/-- Own-property write: update in place (JavaScript keeps the original
insertion position of a re-assigned key) or append a fresh key. -/
def setOwn (m : List (String × Option Nat)) (k : String) (v : Option Nat) :
    List (String × Option Nat) :=
  match m with
  | [] => [(k, v)]
  | e :: t => if e.1 = k then (k, v) :: t else e :: setOwn t k v

/-- One step of the tally loop,
`if (voteCounts[k]) voteCounts[k]++; else voteCounts[k] = 1;`, faithful to
plain-object semantics.  When the key has an own property, its truthiness
decides between increment and reset to `1`.  When it has none, the read
reaches `Object.prototype`: for `__proto__` the inherited accessor yields a
truthy object, so the increment branch runs, but the write of the
resulting `NaN` goes through the inherited `__proto__` setter, which
ignores a non-object value — the vote leaves the object unchanged.  For an
inherited method key (`toString`, `constructor`, ...) the truthy function
takes the increment branch and coercing the function for `++` stores
`NaN`; the next vote for that key reads the falsy own `NaN` and resets the
count to `1`.  Any other key reads `undefined` (falsy) and stores `1`. -/
def bumpStep (m : List (String × Option Nat)) (k : String) :
    Option (Option Nat) → List (String × Option Nat)
  | some v => if jsTruthyNum v then setOwn m k (jsSucc v) else setOwn m k (some 1)
  | none =>
    if k = "__proto__" then m
    else if k ∈ protoFns then setOwn m k none
    else setOwn m k (some 1)

/-- The tally step applied to the own-property read of the key. -/
def bumpTally (m : List (String × Option Nat)) (k : String) :
    List (String × Option Nat) :=
  bumpStep m k (getOwn m k)

/-- The vote tally of the resolution phase. -/
def voteCounts (votes : List Vote) : List (String × Option Nat) :=
  votes.foldl (fun m v => bumpTally m v.votedFor) []

/-- The winner scan of the source: walk the `Object.entries` of the tally,
resetting the winner list on a strictly larger count and appending on an
equal count.  An entry whose count is `NaN` changes nothing, because
`NaN > maxVotes` and `NaN === maxVotes` are both false. -/
def determineWinner (tally : List (String × Option Nat)) : Nat × List String :=
  tally.foldl
    (fun acc e =>
      match e.2 with
      | none => acc
      | some c =>
        if c > acc.1 then (c, [e.1])
        else if c = acc.1 then (acc.1, acc.2 ++ [e.1])
        else acc)
    (0, [])

/-- Reference step for the amended C1: the exact insertion-ordered count
map that the tally loop implements on keys that do not collide with an
`Object.prototype` property. -/
def bumpExact (tally : List (String × Nat)) (name : String) : List (String × Nat) :=
  match tally with
  | [] => [(name, 1)]
  | e :: t => if e.1 = name then (e.1, e.2 + 1) :: t else e :: bumpExact t name

/-- Reference tally: exact counts, keyed in first-vote order. -/
def exactCounts (votes : List Vote) : List (String × Nat) :=
  votes.foldl (fun m v => bumpExact m v.votedFor) []

/-- Lookup in the reference tally (first entry wins; `bumpExact` keeps keys
unique). -/
def tallyLookup (tally : List (String × Nat)) (name : String) : Option Nat :=
  (tally.find? fun e => e.1 = name).map (·.2)

/-- The winner scan restricted to exact counts. -/
def scanWinner (tally : List (String × Nat)) : Nat × List String :=
  tally.foldl
    (fun acc e =>
      if e.2 > acc.1 then (e.2, [e.1])
      else if e.2 = acc.1 then (acc.1, acc.2 ++ [e.1])
      else acc)
    (0, [])

/-- Maximum count appearing in a reference tally. -/
def listMax (l : List (String × Nat)) : Nat := l.foldr (fun e a => max e.2 a) 0

/-- Injection of exact counts into stored JavaScript numbers. -/
def mapSome (m : List (String × Nat)) : List (String × Option Nat) :=
  m.map fun e => (e.1, some e.2)

/-- A prompt template with its optional per-persona instruction table
(`PromptTemplate` in the source; the unused `output_format` member is
omitted). -/
structure PromptTemplate where
  template : String
  persona_specific : Option (List (String × String)) := none
deriving Inhabited

/-- The content of `plan-prompts.json` (`PromptsData` in the source), with
the two members of its `output_format` object inlined as fields. -/
structure PromptsData where
  initial_proposal : PromptTemplate
  refinement : PromptTemplate
  validation : PromptTemplate
  synthesis : PromptTemplate
  universal_rules : String
  output_format_standard : String
  output_format_synthesis : String
deriving Inhabited

/-- `persona_specific?.[personaId]`: optional-chained key access. -/
def psLookup (ps : Option (List (String × String))) (k : String) : Option String :=
  ps.bind fun l => (l.find? fun kv => kv.1 = k).map (·.2)

/-- Everything the session reads from its surroundings: the generation
oracle `g` (call index and prompt to outcome — each agent call consumes the
next index, as the test mocks do), the `JSON.parse` model, the persona
catalog and its shuffle, the loaded prompt templates, and the already
parsed and clamped command arguments. -/
structure SessionEnv where
  g : Nat → String → Except String String
  jparse : String → Option JsonValue
  catalog : List PersonaDefinition
  shuffled : List PersonaDefinition
  prompts : PromptsData
  query : String
  agentCount : Nat
  rounds : Nat
  ts : String

/-- Mutable session state: the number of generation calls made so far and
the file writes performed so far. -/
structure SessionSt where
  calls : Nat
  writes : List (String × String)
deriving DecidableEq

/-- The session computation: state passing with a thrown-error channel.
Errors model JavaScript exceptions; the state (in particular the list of
performed writes) survives a throw, as the real file system does. -/
def SessM (α : Type) : Type := SessionSt → Except String α × SessionSt

/-- Return. -/
def mpure {α : Type} (a : α) : SessM α := fun s => (Except.ok a, s)

/-- Sequencing: a thrown error short-circuits. -/
def mbind {α β : Type} (m : SessM α) (f : α → SessM β) : SessM β := fun s =>
  match m s with
  | (Except.ok a, s1) => f a s1
  | (Except.error e, s1) => (Except.error e, s1)

instance : Monad SessM := { pure := @mpure, bind := @mbind }

/-- One `agent.generate(prompt)` call (also the persona-generation call):
consume the next oracle index; a thrown generation error propagates. -/
def genCall (env : SessionEnv) (prompt : String) : SessM String := fun s =>
  match env.g s.calls prompt with
  | Except.ok t => (Except.ok t, ⟨s.calls + 1, s.writes⟩)
  | Except.error e => (Except.error e, ⟨s.calls + 1, s.writes⟩)

/-- `fs.writeFileSync` (ArtifactWriter): append one write effect. -/
def writeF (p c : String) : SessM Unit := fun s =>
  (Except.ok (), ⟨s.calls, s.writes ++ [(p, c)]⟩)

/-- The inter-agent pause `await new Promise(resolve => setTimeout(resolve,
1000))`.  Time is modelled separately (`runPhaseTimed`); in the session
monad the pause has no observable effect. -/
def cooldownM : SessM Unit := mpure ()

/-- Extract the payload of a successful generation outcome (used only under
a hypothesis that the outcome is a success). -/
def getOk (e : Except String String) : String :=
  match e with
  | Except.ok r => r
  | Except.error _ => ""

/-- The prompt of the persona-generation fallback call. -/
def personaGenPrompt (query : String) (count : Nat) : String :=
  "\n    I need to solve the following problem: \"" ++ query ++
  "\".\n    Generate " ++ toString count ++
  " distinct, expert personas that would be best suited to solve this problem together.\n    They should have different perspectives (e.g., specific technical expertise, cautious vs. innovative, user-focused vs. backend-focused).\n\n    Return the result ONLY as a raw JSON array of objects, where each object has \"name\" and \"description\" fields.\n    Do not include markdown formatting like \x60\x60\x60json.\n    Example:\n    [\x7b\"name\": \"SecurityExpert\", \"description\": \"Focuses on vulnerabilities...\"\x7d, \x7b\"name\": \"UXDesigner\", \"description\": \"Prioritizes user journey...\"\x7d]\n  "

/-- Phase 0 (team assembly): with a non-empty catalog, shuffle and select;
otherwise one generation call feeds the AI fallback of
`generatePersonas`. -/
def teamAssemblyM (env : SessionEnv) : SessM (List Persona) :=
  if env.catalog.length > 0 then
    mpure (selectedFromCatalog env.shuffled env.agentCount)
  else do
    let resp ← genCall env (personaGenPrompt env.query env.agentCount)
    mpure (generatePersonas env.catalog env.shuffled env.jparse resp env.agentCount)

/-- The substitution map of the initial-proposal prompt, in the entry order
of the source object literal. -/
def proposalVars (env : SessionEnv) (agent : Persona) : List (String × String) :=
  let persona := getPersonaByName env.catalog agent.name
  let personaId := jsOrOpt (persona.map (·.id)) "generic"
  let psi := jsOrOpt (psLookup env.prompts.initial_proposal.persona_specific personaId)
    "Create a comprehensive plan addressing all aspects of the problem from your expert perspective."
  [("persona.name", agent.name),
   ("persona.description", agent.description),
   ("persona.expertise",
     jsOrOpt ((persona.map (·.expertise)).map (String.intercalate ", "))
       "general problem solving"),
   ("persona.focus_areas",
     jsOrOpt ((persona.map (·.focus_areas)).map (String.intercalate ", "))
       "comprehensive solution"),
   ("persona.tone", jsOrOpt (persona.map (·.tone)) "professional"),
   ("query", env.query),
   ("persona_specific_instructions", psi),
   ("universal_rules", env.prompts.universal_rules),
   ("output_format", env.prompts.output_format_standard)]

/-- The initial-proposal prompt of one agent. -/
def proposalPrompt (env : SessionEnv) (agent : Persona) : String :=
  buildPrompt env.prompts.initial_proposal.template (proposalVars env agent)

/-- Phase 1: each agent generates a proposal, strictly sequentially in
instantiation order with a cooldown after each completion. -/
def proposalLoop (env : SessionEnv) : List Persona → SessM (List Plan)
  | [] => mpure []
  | a :: rest => do
    let content ← genCall env (proposalPrompt env a)
    cooldownM
    let plans ← proposalLoop env rest
    mpure (⟨a.name, content⟩ :: plans)

/-- The `all plans` text block shared by the review, synthesis and voting
prompts. -/
def allPlansTextOf (plans : List Plan) : String :=
  String.intercalate "\n"
    (plans.map fun p => "Plan from " ++ p.agentName ++ ":\n" ++ p.content ++ "\n---")

/-- The substitution map of the refinement prompt. -/
def refinementVars (env : SessionEnv) (agent : Persona) (allPlansText : String) :
    List (String × String) :=
  let persona := getPersonaByName env.catalog agent.name
  let personaId := jsOrOpt (persona.map (·.id)) "generic"
  let psi := jsOrOpt (psLookup env.prompts.refinement.persona_specific personaId)
    "Improve your plan by incorporating the best ideas from other plans while maintaining your unique perspective."
  [("persona.name", agent.name),
   ("persona.description", agent.description),
   ("all_plans", allPlansText),
   ("persona_specific_instructions", psi),
   ("universal_rules", env.prompts.universal_rules),
   ("output_format", env.prompts.output_format_standard)]

/-- One review round over all agents, same sequencing as the proposal
phase; the plan set snapshot taken before the loop feeds every prompt. -/
def reviewLoop (env : SessionEnv) (allPlansText : String) : List Persona → SessM (List Plan)
  | [] => mpure []
  | a :: rest => do
    let content ← genCall env
      (buildPrompt env.prompts.refinement.template (refinementVars env a allPlansText))
    cooldownM
    let plans ← reviewLoop env allPlansText rest
    mpure (⟨a.name, content⟩ :: plans)

/-- Phase 2: the bounded review loop.  Returns the final plan set and the
per-round plan sets in execution order (for the transcript). -/
def reviewRoundsM (env : SessionEnv) (personas : List Persona) :
    Nat → List Plan → SessM (List Plan × List (List Plan))
  | 0, current => mpure (current, [])
  | n + 1, current => do
    let next ← reviewLoop env (allPlansTextOf current) personas
    let fin ← reviewRoundsM env personas n next
    mpure (fin.1, next :: fin.2)

/-- The agents own latest plan, `find(...)?.content || ''`. -/
def ownPlanOf (plans : List Plan) (name : String) : String :=
  ((plans.find? fun p => p.agentName = name).map (·.content)).getD ""

/-- The peers plans, formatted and joined as the source does. -/
def otherPlansOf (plans : List Plan) (name : String) : String :=
  String.intercalate "\n---\n"
    ((plans.filter fun p => p.agentName ≠ name).map
      fun p => "Plan from " ++ p.agentName ++ ":\n" ++ p.content)

/-- The substitution map of the validation prompt, in the entry order of
the source object literal: the peers plans are passed to the substitution
through the `other_plans` entry. -/
def validationVars (env : SessionEnv) (agent : Persona) (ownPlan otherPlans : String) :
    List (String × String) :=
  let persona := getPersonaByName env.catalog agent.name
  let personaId := jsOrOpt (persona.map (·.id)) "generic"
  let psi := jsOrOpt (psLookup env.prompts.validation.persona_specific personaId)
    "Validate and improve your plan by checking completeness and addressing any gaps."
  [("persona.name", agent.name),
   ("persona.description", agent.description),
   ("query", env.query),
   ("own_plan", ownPlan),
   ("other_plans", otherPlans),
   ("persona_specific_instructions", psi),
   ("universal_rules", env.prompts.universal_rules),
   ("output_format", env.prompts.output_format_standard)]

/-- The validation prompt of one agent given the current plan set. -/
def validationPromptFor (env : SessionEnv) (agent : Persona) (plans : List Plan) : String :=
  buildPrompt env.prompts.validation.template
    (validationVars env agent (ownPlanOf plans agent.name) (otherPlansOf plans agent.name))

/-- Phase 3: the validation loop; its output fully replaces the current
plan set. -/
def validationLoop (env : SessionEnv) (plans : List Plan) : List Persona → SessM (List Plan)
  | [] => mpure []
  | a :: rest => do
    let content ← genCall env (validationPromptFor env a plans)
    cooldownM
    let next ← validationLoop env plans rest
    mpure (⟨a.name, content⟩ :: next)

/-- The synthesis prompt over the validated plan set. -/
def synthesisPromptOf (env : SessionEnv) (plansV : List Plan) : String :=
  buildPrompt env.prompts.synthesis.template
    [("query", env.query),
     ("all_plans", allPlansTextOf plansV),
     ("universal_rules", env.prompts.universal_rules),
     ("output_format", env.prompts.output_format_synthesis)]

/-- The synthesized plan carries the reserved agent name. -/
def synthesizedOf (content : String) : Plan := ⟨"Synthesized Plan", content⟩

/-- The voting prompt (an inline template literal in the source). -/
def votePromptOf (finalText : String) : String :=
  "\n          The discussion is over. Here are the final plans:\n          " ++ finalText ++
  "\n\n          Vote for the single best plan. You may vote for your own if it is truly superior, but be objective.\n\n          Return ONLY a raw JSON object with fields: \"votedFor\" (the name of the agent whose plan you choose) and \"reason\" (string).\n          Do not include markdown formatting.\n          Example: \x7b\"votedFor\": \"SecurityExpert\", \"reason\": \"It addresses the root cause...\"\x7d\n        "

/-- Extraction of a vote from a response: the full extractor chain, then
the shape check `voteData && typeof voteData.votedFor === 'string' &&
typeof voteData.reason === 'string'` (only an object with both string
fields passes; every falsy or field-less value fails it). -/
def extractVote (jparse : String → Option JsonValue) (resp : String) :
    Option (String × String) :=
  match safeParseJSON jparse resp with
  | some (JsonValue.jobj fs) =>
    match lookupLast fs "votedFor", lookupLast fs "reason" with
    | some (JsonValue.jstr v), some (JsonValue.jstr r) => some (v, r)
    | _, _ => none
  | _ => none

/-- The vote recorded for one agent: the extracted value, or the
`"Unknown"` sentinel on extraction failure. -/
def voteOf (jparse : String → Option JsonValue) (agentName resp : String) : Vote :=
  match extractVote jparse resp with
  | some (v, r) => ⟨agentName, v, r⟩
  | none => ⟨agentName, "Unknown", "Failed to parse vote"⟩

/-- Phase 5: the voting loop, same sequencing as every other phase; an
extraction failure yields the sentinel vote and never throws. -/
def votingLoop (env : SessionEnv) (finalText : String) : List Persona → SessM (List Vote)
  | [] => mpure []
  | a :: rest => do
    let resp ← genCall env (votePromptOf finalText)
    cooldownM
    let votes ← votingLoop env finalText rest
    mpure (voteOf env.jparse a.name resp :: votes)

/-- The vote recorded for the agent whose voting call carries index `k`. -/
def voteAtIdx (env : SessionEnv) (finalText : String) (k : Nat) (a : Persona) : Vote :=
  voteOf env.jparse a.name (getOk (env.g k (votePromptOf finalText)))

/-- The votes the loop records when every generation call succeeds, one per
agent in instantiation order, at consecutive call indices from `k`. -/
def votesFrom (env : SessionEnv) (finalText : String) : Nat → List Persona → List Vote
  | _, [] => []
  | k, a :: rest => voteAtIdx env finalText k a :: votesFrom env finalText (k + 1) rest

/-- The validated plan recorded for the agent whose call carries index
`k`. -/
def valPlanAtIdx (env : SessionEnv) (plans : List Plan) (k : Nat) (a : Persona) : Plan :=
  ⟨a.name, getOk (env.g k (validationPromptFor env a plans))⟩

/-- The plan set the validation loop returns when every generation call
succeeds. -/
def valPlansFrom (env : SessionEnv) (plans : List Plan) : Nat → List Persona → List Plan
  | _, [] => []
  | k, a :: rest => valPlanAtIdx env plans k a :: valPlansFrom env plans (k + 1) rest

/-- The winner line appended to the transcript after resolution. -/
def winnerLineOf (winners : List String) (mv : Nat) : String :=
  if winners.length = 1 then
    "Winner: **" ++ winners.headD "" ++ "** with " ++ toString mv ++ " votes.\n"
  else
    "Tie between: " ++ String.intercalate ", " winners ++ " with " ++ toString mv ++
    " votes each.\n"

/-- The per-round transcript chunks of the review phase, numbered from
one. -/
def roundChunks : Nat → List (List Plan) → String
  | _, [] => ""
  | r, ps :: rest =>
    "## Phase 2: Review Round " ++ toString r ++ "\n\n" ++
    String.join (ps.map fun p =>
      "### " ++ p.agentName ++ "\x27s Refined Plan (Round " ++ toString r ++ ")\n" ++
      p.content ++ "\n\n") ++
    roundChunks (r + 1) rest

/-- The full transcript, assembled from the per-phase pieces exactly as the
incremental `transcript +=` statements of the source produce it. -/
def transcriptOf (query : String) (personas : List Persona) (plans : List Plan)
    (roundsList : List (List Plan)) (plansV : List Plan) (synthContent : String)
    (votes : List Vote) (winners : List String) (mv : Nat) : String :=
  "# Planning Session Transcript\n\n## Problem Statement\n" ++ query ++ "\n\n" ++
  "## Personas\n" ++
  String.intercalate "\n"
    (personas.map fun p => "- **" ++ p.name ++ "**: " ++ p.description) ++ "\n\n" ++
  "## Phase 1: Initial Proposals\n\n" ++
  String.join (plans.map fun p =>
    "### " ++ p.agentName ++ "\x27s Proposal\n" ++ p.content ++ "\n\n") ++
  roundChunks 1 roundsList ++
  "## Phase 3: Quality Validation\n\n" ++
  String.join (plansV.map fun p =>
    "### " ++ p.agentName ++ "\x27s Validated Plan\n" ++ p.content ++ "\n\n") ++
  "## Phase 4: Synthesis\n\n" ++
  "### Synthesized Plan\n" ++ synthContent ++ "\n\n" ++
  "## Phase 5: Voting\n\n" ++
  String.join (votes.map fun v =>
    "- **" ++ v.voterName ++ "** voted for **" ++ v.votedFor ++ "**: \"" ++
    v.reason ++ "\"\n") ++
  "\n## Result\n" ++ winnerLineOf winners mv

/-- `currentPlans.find(p => p.agentName === winnerName)`. -/
def findPlanFor (plans : List Plan) (name : String) : Option Plan :=
  plans.find? fun p => p.agentName = name

/-- Template interpolation of `winningPlan?.content`: JavaScript renders
the `undefined` of a failed find as the literal text `undefined`. -/
def contentOrUndefined (o : Option Plan) : String :=
  match o with
  | some p => p.content
  | none => "undefined"

/-- The winner-focused artifact document, exactly as the source builds
it. -/
def winningContentOf (query : String) (winners : List String) (mv votesLen : Nat)
    (plansV : List Plan) (synth : Plan) : String :=
  let base := "# Winning Plan\n\n**Problem:** " ++ query ++ "\n\n"
  if winners.length = 1 then
    let w := winners.headD ""
    let winningPlan : Option Plan :=
      if w = "Synthesized Plan" then some synth else findPlanFor plansV w
    let base2 := base ++
      (if w = "Synthesized Plan" then
        "> **Winner:** Unified Synthesized Plan (combining best elements from all agents)\n\n"
      else "> **Winner:** " ++ w ++ "\x27s Plan\n\n")
    base2 ++ "**Votes:** " ++ toString mv ++ "/" ++ toString votesLen ++
      "\n\n---\n\n" ++ contentOrUndefined winningPlan
  else
    base ++ "> **Result:** Tie between " ++ String.intercalate ", " winners ++
    "\n\n**Votes:** " ++ toString mv ++ " each\n\n---\n\n" ++
    String.join (winners.map fun w =>
      "## Plan by " ++ w ++ "\n\n" ++
      contentOrUndefined
        (if w = "Synthesized Plan" then some synth else findPlanFor plansV w) ++
      "\n\n---\n\n")

/-- `new Date().toISOString().replace(/[:.]/g, '-')`: colons and dots of
the timestamp become dashes. -/
def sanitizeTs (ts : String) : String :=
  String.mk (ts.data.map fun c => if c = ':' || c = '.' then '-' else c)

/-- The transcript artifact path. -/
def transcriptPathOf (ts : String) : String := "transcript-" ++ sanitizeTs ts ++ ".md"

/-- The winning-plan artifact path. -/
def winningPathOf (ts : String) : String := "winning_plan-" ++ sanitizeTs ts ++ ".md"

/-- Everything a successful session determines. -/
structure SessionOut where
  personas : List Persona
  plans : List Plan
  synthesizedPlan : Plan
  votes : List Vote
  winners : List String
  maxVotes : Nat
  transcript : String
  winningContent : String
deriving Inhabited

/-- Resolution and artifact rendering: tally the votes, determine the
winner set, and build the two documents. -/
def mkSessionOut (query : String) (personas : List Persona) (plans : List Plan)
    (roundsList : List (List Plan)) (plansV : List Plan) (synthContent : String)
    (votes : List Vote) : SessionOut :=
  let tally := voteCounts votes
  let mw := determineWinner tally
  let synth := synthesizedOf synthContent
  { personas := personas
    plans := plansV
    synthesizedPlan := synth
    votes := votes
    winners := mw.2
    maxVotes := mw.1
    transcript :=
      transcriptOf query personas plans roundsList plansV synthContent votes mw.2 mw.1
    winningContent := winningContentOf query mw.2 mw.1 votes.length plansV synth }

/-- States 1 through 8 of the session (the body of the `try` block): team
assembly, proposal, bounded review, validation, synthesis, voting,
resolution, artifact emission. -/
def sessionBody (env : SessionEnv) : SessM SessionOut := do
  let personas ← teamAssemblyM env
  let plans ← proposalLoop env personas
  let pr ← reviewRoundsM env personas env.rounds plans
  let plansV ← validationLoop env pr.1 personas
  let synthContent ← genCall env (synthesisPromptOf env plansV)
  let votes ← votingLoop env
    (allPlansTextOf (plansV ++ [synthesizedOf synthContent])) personas
  let out := mkSessionOut env.query personas plans pr.2 plansV synthContent votes
  writeF (transcriptPathOf env.ts) out.transcript
  writeF (winningPathOf env.ts) out.winningContent
  mpure out

/-- The initial session state. -/
def initSt : SessionSt := ⟨0, []⟩

/-- The session action with its surrounding `try`/`catch`: the performed
writes, plus the single session-level failure message (the `catch` branch)
when an error was thrown. -/
def planActionModel (env : SessionEnv) : List (String × String) × Option String :=
  match sessionBody env initSt with
  | (Except.ok _, s) => (s.writes, none)
  | (Except.error e, s) => (s.writes, some ("Planning session failed: " ++ e))

/-- One result of a timed phase: when the generation started, when it
finished, and the text it produced. -/
structure TimedRec where
  startT : Nat
  finishT : Nat
  value : String
deriving DecidableEq

/-- The timed skeleton shared by every fan-out phase loop of the source
(proposal, review, validation, voting): agents run strictly sequentially in
list order; each generation starts when the previous round trip is over,
takes its latency, and is followed by the fixed cooldown before the next
agent starts. -/
def runPhaseTimed (cool : Nat) (gen : Persona → String) (lat : Persona → Nat) :
    List Persona → Nat → List TimedRec
  | [], _ => []
  | a :: rest, t =>
    ⟨t, t + lat a, gen a⟩ :: runPhaseTimed cool gen lat rest (t + lat a + cool)

/-- A `JSON.parse` model that fails on every input (any input with no
well-formed JSON anywhere in it realises it). -/
def jpNone : String → Option JsonValue := fun _ => none

/-- Minimal prompt-template data for concrete runs. -/
def prompts0 : PromptsData := ⟨⟨"T", none⟩, ⟨"R", none⟩, ⟨"V", none⟩, ⟨"S", none⟩, "U", "OF", "OS"⟩

/-- A one-entry persona catalog for concrete runs. -/
def catalog1 : List PersonaDefinition := [⟨"p1", "N", "dN", [], [], "tone1"⟩]

/-- A well-formed vote response naming agent `N`. -/
def voteStrN : String := "\x7b\"votedFor\":\"N\",\"reason\":\"r\"\x7d"

/-- A `JSON.parse` model that parses exactly `voteStrN` (to the value
`JSON.parse` would produce for it). -/
def jparseN : String → Option JsonValue := fun s =>
  if s = voteStrN then
    some (JsonValue.jobj [("votedFor", JsonValue.jstr "N"), ("reason", JsonValue.jstr "r")])
  else none

/-- A session whose four generation calls all succeed (one agent from the
catalog, zero review rounds; call 3 is the vote). -/
def envOk : SessionEnv :=
  ⟨fun n _ => Except.ok (if n = 3 then voteStrN else "P"),
   jparseN, catalog1, catalog1, prompts0, "q", 1, 0, "TS"⟩

/-- A session whose first generation call throws a quota error. -/
def envFail : SessionEnv :=
  ⟨fun _ _ => Except.error "Quota", jparseN, catalog1, catalog1, prompts0, "q", 1, 0, "TS"⟩

/-- A session whose generation calls all succeed but produce text no
strategy of the extractor can parse. -/
def envU : SessionEnv :=
  ⟨fun _ _ => Except.ok "zzz", jpNone, catalog1, catalog1, prompts0, "q", 1, 0, "TS"⟩

/-- The output of the successful concrete session. -/
def outOk : SessionOut :=
  match (sessionBody envOk initSt).1 with
  | Except.ok o => o
  | Except.error _ => default

/-- The output of the concrete session with unparsable votes. -/
def outU : SessionOut :=
  match (sessionBody envU initSt).1 with
  | Except.ok o => o
  | Except.error _ => default

/-- Modelled from the spec: the validation prompt template lives in
`packages/cli/prompts/plan-prompts.json`, a repository file that is not
under `src/`.  Per the specification, Validation has each agent review its
own latest plan against the original problem statement, so the modelled
template references the persona placeholders, the problem statement
(`query`) and the agents own plan (`own_plan`) — and no `other_plans`
placeholder. -/
def validationTemplateSpec : String :=
  "You are " ++ ob ++ "persona.name" ++ cb ++ ", " ++ ob ++ "persona.description" ++ cb ++
  ".\nProblem: " ++ ob ++ "query" ++ cb ++ "\nYour plan:\n" ++ ob ++ "own_plan" ++ cb ++
  "\nReview your own plan against the problem statement and expand or correct it.\n" ++
  ob ++ "persona_specific_instructions" ++ cb ++ "\n" ++ ob ++ "universal_rules" ++ cb ++
  "\n" ++ ob ++ "output_format" ++ cb

/-- Prompt data carrying the modelled validation template. -/
def prompts3 : PromptsData :=
  ⟨⟨"T", none⟩, ⟨"R", none⟩, ⟨validationTemplateSpec, none⟩, ⟨"S", none⟩, "U", "OF", "OS"⟩

/-- A session environment for the validation-prompt analysis (empty
catalog, so persona lookups resolve to the generic defaults). -/
def env3 : SessionEnv :=
  ⟨fun _ _ => Except.ok "", jpNone, [], [], prompts3, "q3", 2, 0, "TS"⟩

/-- The agent under analysis in the validation phase. -/
def agentA : Persona := ⟨"A", "dA", none⟩

/-- A plan set in which agent A\x27s own plan contains the literal
`other_plans` placeholder text. -/
def plansX : List Plan := [⟨"A", ob ++ "other_plans" ++ cb⟩, ⟨"B", "SECRETB"⟩]

/-- The same plan set with agent B\x27s content changed. -/
def plansY : List Plan := [⟨"A", ob ++ "other_plans" ++ cb⟩, ⟨"B", "SECRETC"⟩]

/-- The persona-generation response text of the duplicate-name
counterexample (a JSON array of two personas that share the name `A`). -/
def dupStr : String :=
  "[\x7b\"name\":\"A\",\"description\":\"d1\"\x7d,\x7b\"name\":\"A\",\"description\":\"d2\"\x7d]"

/-- The value `JSON.parse` produces for `dupStr`. -/
def dupArr : JsonValue :=
  JsonValue.jarr
    [JsonValue.jobj [("name", JsonValue.jstr "A"), ("description", JsonValue.jstr "d1")],
     JsonValue.jobj [("name", JsonValue.jstr "A"), ("description", JsonValue.jstr "d2")]]

/-- A `JSON.parse` model that parses exactly `dupStr`. -/
def jpDup : String → Option JsonValue := fun s => if s = dupStr then some dupArr else none

/-- A two-entry duplicate-free catalog. -/
def catalog2 : List PersonaDefinition :=
  [⟨"p1", "N1", "d1", [], [], "t"⟩, ⟨"p2", "N2", "d2", [], [], "t"⟩]

/-- The template of the placeholder-creation counterexample: open braces,
`a`, one close brace, a full placeholder for `b`, one more close brace. -/
def braceyT : String :=
  ob ++ "a" ++ String.mk ['\x7d'] ++ ob ++ "b" ++ cb ++ String.mk ['\x7d']

/-- What `buildPrompt` makes of `braceyT`: a brand-new placeholder. -/
def braceyRes : String := ob ++ "a" ++ cb

/-- A well-shaped template for the positive placeholder-deletion case. -/
def cleanT : String := "Hi " ++ ob ++ "name" ++ cb ++ "! " ++ ob ++ "missing" ++ cb ++ "."

/-- Variables for `cleanT`. -/
def cleanVars : List (String × String) := [("name", "Ada")]

/-- The substitution state after the first four entries of the validation
variable map (persona name, persona description, query, own plan) have been
folded in. -/
def substFour (tmpl nm ds q own : String) : List Char :=
  jsReplace "own_plan".data own.data
    (jsReplace "query".data q.data
      (jsReplace "persona.description".data ds.data
        (jsReplace "persona.name".data nm.data tmpl.data)))

/-! Helper lemmas. -/

theorem lastIdxOf_drop (ch : Char) :
    ∀ (s : List Char) (m : Nat),
      lastIdxOf ch (s.drop m) =
        (lastIdxOf ch s).bind fun j => if m ≤ j then some (j - m) else none
  | [], m => by simp [lastIdxOf]
  | c :: t, 0 => by cases h : lastIdxOf ch (c :: t) <;> simp [h]
  | c :: t, m + 1 => by
    have ih := lastIdxOf_drop ch t m
    simp only [List.drop_succ_cons]
    rw [ih]
    cases h : lastIdxOf ch t with
    | none =>
      simp only [lastIdxOf, h, Option.bind_none]
      split
      · simp
      · rfl
    | some j =>
      simp only [lastIdxOf, h, Option.bind_some]
      by_cases hm : m ≤ j
      · have hm1 : m + 1 ≤ j + 1 := Nat.succ_le_succ hm
        simp [hm, hm1, Nat.succ_sub_succ]
      · have hm1 : ¬ m + 1 ≤ j + 1 := fun hh => hm (Nat.le_of_succ_le_succ hh)
        simp [hm, hm1]

theorem bracketSlice_eq_spec (s : List Char) : bracketSlice s = bracketSliceSpec s := by
  unfold bracketSlice bracketSliceSpec
  cases hf : firstIdxP isOpenBr s with
  | none => rfl
  | some i =>
    simp only
    rw [lastIdxOf_drop]
    cases hl : lastIdxOf (if s.getD i ' ' = '[' then ']' else '\x7d') s with
    | none => rfl
    | some j =>
      simp only [Option.bind_some]
      by_cases hij : i + 1 ≤ j
      · have hlt : i < j := hij
        have hs : sliceCl s i j = sliceCl s i (i + 1 + (j - (i + 1))) := by
          congr 1
          omega
        simp [hij, hlt, hs]
      · have hlt : ¬ i < j := fun hh => hij hh
        simp [hij, hlt]

theorem safeParseTail_eq_bracketed {α : Type} (parse : String → Option α) (text : String) :
    safeParseTail parse text = extractBracketed parse text := by
  unfold safeParseTail extractBracketed
  rw [bracketSlice_eq_spec]
  cases bracketSliceSpec text.data <;> rfl

/-- C2: for every input, the structured-text extractor attempts exactly the
three strategies of the specification in order (whole text; first fenced
code block, with the recognised optional language tag `json`; slice from
the first opening delimiter to the last matching closer after it), stopping
at the first success; every strategy failure is swallowed (`parse` models a
`JSON.parse` call, with `none` for a thrown exception, and the extractor is
a total function, so no exception propagates), and the result is `none`
exactly when all three strategies fail. -/
theorem safeParseJSON_three_strategies {α : Type} (parse : String → Option α) (text : String) :
    safeParseJSON parse text = extractorSpec parse text ∧
    (safeParseJSON parse text = none ↔
      extractWhole parse text = none ∧ extractFenced parse text = none ∧
        extractBracketed parse text = none) := by
  have hmain : safeParseJSON parse text = extractorSpec parse text := by
    unfold safeParseJSON extractorSpec extractWhole extractFenced
    cases hp : parse text with
    | some v => simp [Option.orElse]
    | none =>
      simp only [Option.orElse, Option.none_bind]
      cases hf : fencedCapture text.data with
      | none => simp [safeParseTail_eq_bracketed parse text, hp, hf]
      | some content =>
        cases hc : parse (String.mk content) with
        | some v => simp [hp, hf, hc]
        | none => simp [safeParseTail_eq_bracketed parse text, hp, hf, hc]
  refine ⟨hmain, ?_⟩
  rw [hmain]
  unfold extractorSpec extractWhole extractFenced
  cases hp : parse text with
  | some v => simp [Option.orElse]
  | none =>
    cases hf : fencedCapture text.data with
    | none => simp [Option.orElse, extractFenced, hf]
    | some content =>
      cases hc : parse (String.mk content) with
      | some v => simp [Option.orElse, extractFenced, hf, hc]
      | none => simp [Option.orElse, extractFenced, hf, hc]

theorem placeholderSplit_length {s tail : List Char} (h : placeholderSplit s = some tail) :
    tail.length + 4 ≤ s.length := by
  unfold placeholderSplit at h
  split at h
  · rename_i rest
    split at h
    · exact absurd h (by simp)
    · rename_i a as tl htake hdrop
      have hsplit := List.takeWhile_append_dropWhile
        (p := fun c => c ≠ '\x7d') (l := rest)
      rw [htake, hdrop] at hsplit
      have hlen : rest.length = (a :: as).length + ('\x7d' :: '\x7d' :: tl).length := by
        rw [← hsplit, List.length_append]
      cases h
      simp [List.length_cons] at hlen ⊢
      omega
    · exact absurd h (by simp)
  · exact absurd h (by simp)

theorem placeholderSplit_ne {c : Char} (rest : List Char) (h : c ≠ '\x7b') :
    placeholderSplit (c :: rest) = none := by
  unfold placeholderSplit
  split
  · rename_i heq
    exact absurd (by injection heq) h
  · rfl

theorem strip_no_brace :
    ∀ (f : Nat) (s : List Char), s.length ≤ f → cleanShapeAux f s = true →
      (stripPHAux f s).all (fun c => c ≠ '\x7b') = true
  | 0, s, hf, _ => by
    have : s = [] := List.eq_nil_of_length_eq_zero (Nat.le_zero.mp hf)
    subst this
    rfl
  | f + 1, [], _, _ => rfl
  | f + 1, c :: rest, hf, hc => by
    by_cases hbr : c = '\x7b'
    · subst hbr
      unfold cleanShapeAux at hc
      simp only [if_pos rfl] at hc
      cases hm : placeholderSplit ('\x7b' :: rest) with
      | none => rw [hm] at hc; exact absurd hc (by simp)
      | some tail =>
        rw [hm] at hc
        have hlen := placeholderSplit_length hm
        have htail : tail.length ≤ f := by
          simp only [List.length_cons] at hlen hf
          omega
        unfold stripPHAux
        rw [hm]
        exact strip_no_brace f tail htail hc
    · unfold cleanShapeAux at hc
      simp only [if_neg hbr] at hc
      have hrest : rest.length ≤ f := by
        simp [List.length_cons] at hf
        omega
      unfold stripPHAux
      rw [placeholderSplit_ne rest hbr]
      simp only [List.all_cons]
      rw [strip_no_brace f rest hrest hc]
      simp [hbr]

theorem hasPlaceholder_of_no_brace :
    ∀ s : List Char, s.all (fun c => c ≠ '\x7b') = true → hasPlaceholder s = false
  | [], _ => rfl
  | c :: t, h => by
    simp only [List.all_cons, Bool.and_eq_true] at h
    have h1 : c ≠ '\x7b' := by
      have := h.1
      simpa using this
    simp [hasPlaceholder, placeholderSplit_ne t h1,
      hasPlaceholder_of_no_brace t h.2]

/-- C9 counterexample: the claim "the result never contains a placeholder
verbatim" is false.  On the template consisting of open braces, `a`, one
close brace, a complete placeholder for `b`, and one more close brace
(ten characters), with an empty variable map, the single cleanup pass of
`buildPrompt` deletes the inner placeholder and thereby concatenates the
surrounding text into the brand-new placeholder for `a`, which survives in
the output. -/
theorem buildPrompt_placeholder_counterexample :
    buildPrompt braceyT [] = braceyRes ∧ hasPlaceholder braceyRes.data = true := by
  constructor
  · rfl
  · rfl

/-- C9 (amended): `buildPrompt` substitutes the mapped placeholders
sequentially and then deletes, in a single left-to-right global-replace
pass, every remaining placeholder; whenever the substituted text is
well-shaped (every open brace starts a complete placeholder), the result
contains no placeholder at all.  In general a deletion can concatenate the
text around it into a new placeholder, which survives (see the
counterexample). -/
theorem buildPrompt_clean (template : String) (vars : List (String × String))
    (h : cleanShape (substAll vars template) = true) :
    hasPlaceholder (buildPrompt template vars).data = false := by
  have hdata : (buildPrompt template vars).data = stripPHAux
      (substAll vars template).length (substAll vars template) := rfl
  rw [hdata]
  exact hasPlaceholder_of_no_brace _
    (strip_no_brace (substAll vars template).length (substAll vars template) le_rfl h)

/-- Witness for the amended C9 theorem at a concrete template and variable
map. -/
theorem buildPrompt_clean_witness :
    cleanShape (substAll cleanVars cleanT) = true ∧
    hasPlaceholder (buildPrompt cleanT cleanVars).data = false :=
  ⟨by decide, buildPrompt_clean cleanT cleanVars (by decide)⟩

theorem sessBind_eq {α β : Type} (m : SessM α) (f : α → SessM β) : m >>= f = mbind m f := rfl

theorem sessPure_eq {α : Type} (a : α) : (pure a : SessM α) = mpure a := rfl

theorem mbind_ok {α β : Type} {m : SessM α} {f : α → SessM β} {s s1 : SessionSt} {a : α}
    (h : m s = (Except.ok a, s1)) : mbind m f s = f a s1 := by
  unfold mbind
  rw [h]

theorem mbind_error {α β : Type} {m : SessM α} {f : α → SessM β} {s s1 : SessionSt}
    {e : String} (h : m s = (Except.error e, s1)) : mbind m f s = (Except.error e, s1) := by
  unfold mbind
  rw [h]

theorem pw_mbind {α β : Type} {m : SessM α} {f : α → SessM β}
    (hm : ∀ s, (m s).2.writes = s.writes) (hf : ∀ a s, (f a s).2.writes = s.writes) :
    ∀ s, (mbind m f s).2.writes = s.writes := by
  intro s
  unfold mbind
  have hms := hm s
  cases hres : m s with
  | mk r s1 =>
    rw [hres] at hms
    cases r with
    | error e => exact hms
    | ok a => exact (hf a s1).trans hms

theorem pw_genCall (env : SessionEnv) (p : String) :
    ∀ s, (genCall env p s).2.writes = s.writes := by
  intro s
  unfold genCall
  cases env.g s.calls p <;> rfl

theorem pw_mpure {α : Type} (a : α) : ∀ s, (mpure a s).2.writes = s.writes := fun _ => rfl

theorem pw_teamAssembly (env : SessionEnv) :
    ∀ s, (teamAssemblyM env s).2.writes = s.writes := by
  intro s
  unfold teamAssemblyM
  split
  · rfl
  · simp only [sessBind_eq, sessPure_eq]
    exact pw_mbind (pw_genCall env _) (fun a => pw_mpure _) s

theorem pw_proposalLoop (env : SessionEnv) :
    ∀ (personas : List Persona) (s : SessionSt),
      (proposalLoop env personas s).2.writes = s.writes
  | [], _ => rfl
  | a :: rest, s => by
    unfold proposalLoop
    simp only [sessBind_eq, sessPure_eq]
    exact pw_mbind (pw_genCall env _)
      (fun c => pw_mbind (pw_mpure _)
        (fun _ => pw_mbind (fun s2 => pw_proposalLoop env rest s2)
          (fun plans => pw_mpure _))) s

theorem pw_reviewLoop (env : SessionEnv) (txt : String) :
    ∀ (personas : List Persona) (s : SessionSt),
      (reviewLoop env txt personas s).2.writes = s.writes
  | [], _ => rfl
  | a :: rest, s => by
    unfold reviewLoop
    simp only [sessBind_eq, sessPure_eq]
    exact pw_mbind (pw_genCall env _)
      (fun c => pw_mbind (pw_mpure _)
        (fun _ => pw_mbind (fun s2 => pw_reviewLoop env txt rest s2)
          (fun plans => pw_mpure _))) s

theorem pw_reviewRounds (env : SessionEnv) (personas : List Persona) :
    ∀ (n : Nat) (current : List Plan) (s : SessionSt),
      (reviewRoundsM env personas n current s).2.writes = s.writes
  | 0, _, _ => rfl
  | n + 1, current, s => by
    unfold reviewRoundsM
    simp only [sessBind_eq, sessPure_eq]
    exact pw_mbind (fun s2 => pw_reviewLoop env _ personas s2)
      (fun next => pw_mbind (fun s2 => pw_reviewRounds env personas n next s2)
        (fun fin => pw_mpure _)) s

theorem pw_validationLoop (env : SessionEnv) (plans : List Plan) :
    ∀ (personas : List Persona) (s : SessionSt),
      (validationLoop env plans personas s).2.writes = s.writes
  | [], _ => rfl
  | a :: rest, s => by
    unfold validationLoop
    simp only [sessBind_eq, sessPure_eq]
    exact pw_mbind (pw_genCall env _)
      (fun c => pw_mbind (pw_mpure _)
        (fun _ => pw_mbind (fun s2 => pw_validationLoop env plans rest s2)
          (fun next => pw_mpure _))) s

theorem pw_votingLoop (env : SessionEnv) (txt : String) :
    ∀ (personas : List Persona) (s : SessionSt),
      (votingLoop env txt personas s).2.writes = s.writes
  | [], _ => rfl
  | a :: rest, s => by
    unfold votingLoop
    simp only [sessBind_eq, sessPure_eq]
    exact pw_mbind (pw_genCall env _)
      (fun c => pw_mbind (pw_mpure _)
        (fun _ => pw_mbind (fun s2 => pw_votingLoop env txt rest s2)
          (fun votes => pw_mpure _))) s

theorem sessionBody_error (env : SessionEnv) (s : SessionSt) :
    ∀ (e : String) (s1 : SessionSt), sessionBody env s = (Except.error e, s1) →
      s1.writes = s.writes := by
  intro e sOut hEq
  unfold sessionBody at hEq
  simp only [sessBind_eq, sessPure_eq] at hEq
  cases h1 : teamAssemblyM env s with
  | mk r1 s1 =>
  cases r1 with
  | error e1 =>
    rw [mbind_error h1] at hEq
    injection hEq with hl hr
    subst hr
    have := pw_teamAssembly env s
    rw [h1] at this
    exact this
  | ok personas =>
  rw [mbind_ok h1] at hEq
  have hw1 : s1.writes = s.writes := by
    have := pw_teamAssembly env s
    rw [h1] at this
    exact this
  cases h2 : proposalLoop env personas s1 with
  | mk r2 s2 =>
  cases r2 with
  | error e2 =>
    rw [mbind_error h2] at hEq
    injection hEq with hl hr
    subst hr
    have := pw_proposalLoop env personas s1
    rw [h2] at this
    exact this.trans hw1
  | ok plans =>
  rw [mbind_ok h2] at hEq
  have hw2 : s2.writes = s.writes := by
    have := pw_proposalLoop env personas s1
    rw [h2] at this
    exact this.trans hw1
  cases h3 : reviewRoundsM env personas env.rounds plans s2 with
  | mk r3 s3 =>
  cases r3 with
  | error e3 =>
    rw [mbind_error h3] at hEq
    injection hEq with hl hr
    subst hr
    have := pw_reviewRounds env personas env.rounds plans s2
    rw [h3] at this
    exact this.trans hw2
  | ok pr =>
  rw [mbind_ok h3] at hEq
  have hw3 : s3.writes = s.writes := by
    have := pw_reviewRounds env personas env.rounds plans s2
    rw [h3] at this
    exact this.trans hw2
  cases h4 : validationLoop env pr.1 personas s3 with
  | mk r4 s4 =>
  cases r4 with
  | error e4 =>
    rw [mbind_error h4] at hEq
    injection hEq with hl hr
    subst hr
    have := pw_validationLoop env pr.1 personas s3
    rw [h4] at this
    exact this.trans hw3
  | ok plansV =>
  rw [mbind_ok h4] at hEq
  have hw4 : s4.writes = s.writes := by
    have := pw_validationLoop env pr.1 personas s3
    rw [h4] at this
    exact this.trans hw3
  cases h5 : genCall env (synthesisPromptOf env plansV) s4 with
  | mk r5 s5 =>
  cases r5 with
  | error e5 =>
    rw [mbind_error h5] at hEq
    injection hEq with hl hr
    subst hr
    have := pw_genCall env (synthesisPromptOf env plansV) s4
    rw [h5] at this
    exact this.trans hw4
  | ok synthContent =>
  rw [mbind_ok h5] at hEq
  have hw5 : s5.writes = s.writes := by
    have := pw_genCall env (synthesisPromptOf env plansV) s4
    rw [h5] at this
    exact this.trans hw4
  cases h6 : votingLoop env
      (allPlansTextOf (plansV ++ [synthesizedOf synthContent])) personas s5 with
  | mk r6 s6 =>
  cases r6 with
  | error e6 =>
    rw [mbind_error h6] at hEq
    injection hEq with hl hr
    subst hr
    have := pw_votingLoop env
      (allPlansTextOf (plansV ++ [synthesizedOf synthContent])) personas s5
    rw [h6] at this
    exact this.trans hw5
  | ok votes =>
  rw [mbind_ok h6] at hEq
  rw [mbind_ok (show writeF (transcriptPathOf env.ts) _ s6 = _ from rfl)] at hEq
  rw [mbind_ok (show writeF (winningPathOf env.ts) _ _ = _ from rfl)] at hEq
  exact absurd hEq (by simp [mpure])

theorem sessionBody_ok (env : SessionEnv) (s : SessionSt) :
    ∀ (out : SessionOut) (s1 : SessionSt), sessionBody env s = (Except.ok out, s1) →
      (∃ personas plans roundsList plansV synthContent votes,
        out = mkSessionOut env.query personas plans roundsList plansV synthContent votes) ∧
      s1.writes = s.writes ++
        [(transcriptPathOf env.ts, out.transcript),
         (winningPathOf env.ts, out.winningContent)] := by
  intro out sOut hEq
  unfold sessionBody at hEq
  simp only [sessBind_eq, sessPure_eq] at hEq
  cases h1 : teamAssemblyM env s with
  | mk r1 s1 =>
  cases r1 with
  | error e1 =>
    rw [mbind_error h1] at hEq
    exact absurd hEq (by simp)
  | ok personas =>
  rw [mbind_ok h1] at hEq
  have hw1 : s1.writes = s.writes := by
    have := pw_teamAssembly env s
    rw [h1] at this
    exact this
  cases h2 : proposalLoop env personas s1 with
  | mk r2 s2 =>
  cases r2 with
  | error e2 =>
    rw [mbind_error h2] at hEq
    exact absurd hEq (by simp)
  | ok plans =>
  rw [mbind_ok h2] at hEq
  have hw2 : s2.writes = s.writes := by
    have := pw_proposalLoop env personas s1
    rw [h2] at this
    exact this.trans hw1
  cases h3 : reviewRoundsM env personas env.rounds plans s2 with
  | mk r3 s3 =>
  cases r3 with
  | error e3 =>
    rw [mbind_error h3] at hEq
    exact absurd hEq (by simp)
  | ok pr =>
  rw [mbind_ok h3] at hEq
  have hw3 : s3.writes = s.writes := by
    have := pw_reviewRounds env personas env.rounds plans s2
    rw [h3] at this
    exact this.trans hw2
  cases h4 : validationLoop env pr.1 personas s3 with
  | mk r4 s4 =>
  cases r4 with
  | error e4 =>
    rw [mbind_error h4] at hEq
    exact absurd hEq (by simp)
  | ok plansV =>
  rw [mbind_ok h4] at hEq
  have hw4 : s4.writes = s.writes := by
    have := pw_validationLoop env pr.1 personas s3
    rw [h4] at this
    exact this.trans hw3
  cases h5 : genCall env (synthesisPromptOf env plansV) s4 with
  | mk r5 s5 =>
  cases r5 with
  | error e5 =>
    rw [mbind_error h5] at hEq
    exact absurd hEq (by simp)
  | ok synthContent =>
  rw [mbind_ok h5] at hEq
  have hw5 : s5.writes = s.writes := by
    have := pw_genCall env (synthesisPromptOf env plansV) s4
    rw [h5] at this
    exact this.trans hw4
  cases h6 : votingLoop env
      (allPlansTextOf (plansV ++ [synthesizedOf synthContent])) personas s5 with
  | mk r6 s6 =>
  cases r6 with
  | error e6 =>
    rw [mbind_error h6] at hEq
    exact absurd hEq (by simp)
  | ok votes =>
  rw [mbind_ok h6] at hEq
  have hw6 : s6.writes = s.writes := by
    have := pw_votingLoop env
      (allPlansTextOf (plansV ++ [synthesizedOf synthContent])) personas s5
    rw [h6] at this
    exact this.trans hw5
  rw [mbind_ok (show writeF (transcriptPathOf env.ts) _ s6 = _ from rfl)] at hEq
  rw [mbind_ok (show writeF (winningPathOf env.ts) _ _ = _ from rfl)] at hEq
  simp only [mpure, Prod.mk.injEq] at hEq
  obtain ⟨hout, hst⟩ := hEq
  injection hout with hout
  constructor
  · exact ⟨personas, plans, pr.2, plansV, synthContent, votes, hout.symm⟩
  · rw [← hst, ← hout, hw6]
    simp [List.append_assoc]

/-- C5: if any error is thrown during phases 1 through 7 (team assembly
through resolution — in the model, the only throwing effect is a generation
call, and the quantification covers an error at every position), the
session aborts with the single failure message carrying the triggering
error text and performs no file write; on every successful session the
artifact writer is invoked exactly twice, first with the transcript and
then with the winning-artifact document, at the timestamp-derived paths. -/
theorem planAction_failure_and_artifacts (env : SessionEnv) :
    (∀ e s1, sessionBody env initSt = (Except.error e, s1) →
      planActionModel env = ([], some ("Planning session failed: " ++ e))) ∧
    (∀ out s1, sessionBody env initSt = (Except.ok out, s1) →
      planActionModel env =
        ([(transcriptPathOf env.ts, out.transcript),
          (winningPathOf env.ts, out.winningContent)], none)) := by
  constructor
  · intro e s1 h
    unfold planActionModel
    rw [h]
    have hw := sessionBody_error env initSt e s1 h
    simp only [initSt] at hw
    simp [hw]
  · intro out s1 h
    unfold planActionModel
    rw [h]
    have hw := (sessionBody_ok env initSt out s1 h).2
    simp only [initSt] at hw
    simp [hw]

theorem foldl_bump_const (n : String) :
    ∀ (votes : List Vote) (k : Nat), 0 < k → (∀ v ∈ votes, v.votedFor = n) →
      votes.foldl (fun m v => bumpTally m v.votedFor) [(n, some k)] =
        [(n, some (k + votes.length))]
  | [], k, _, _ => by simp
  | v :: t, k, hk, h => by
    have hv : v.votedFor = n := h v (by simp)
    have ht : ∀ w ∈ t, w.votedFor = n := fun w hw => h w (by simp [hw])
    have hk0 : (k != 0) = true := by
      simp only [bne_iff_ne, ne_eq]
      omega
    have hb : bumpTally [(n, some k)] n = [(n, some (k + 1))] := by
      simp [bumpTally, bumpStep, getOwn, List.find?, jsTruthyNum, jsSucc, setOwn, hk0]
    have hlen : k + 1 + t.length = k + (v :: t).length := by
      simp only [List.length_cons]
      omega
    simp only [List.foldl_cons, hv, hb]
    rw [foldl_bump_const n t (k + 1) (by omega) ht, hlen]

theorem voteCounts_all_unknown (n : String) (votes : List Vote) (hne : votes ≠ [])
    (hn1 : ¬ n = "__proto__") (hn2 : n ∉ protoFns)
    (h : ∀ v ∈ votes, v.votedFor = n) : voteCounts votes = [(n, some votes.length)] := by
  cases votes with
  | nil => exact absurd rfl hne
  | cons v t =>
    have hv : v.votedFor = n := h v (by simp)
    have ht : ∀ w ∈ t, w.votedFor = n := fun w hw => h w (by simp [hw])
    have hlen : 1 + t.length = (v :: t).length := by
      simp only [List.length_cons]
      omega
    have hb0 : bumpTally [] n = [(n, some 1)] := by
      simp [bumpTally, bumpStep, getOwn, setOwn, hn1, hn2]
    unfold voteCounts
    simp only [List.foldl_cons, hv, hb0]
    rw [foldl_bump_const n t 1 (by omega) ht, hlen]

theorem determineWinner_single (n : String) (m : Nat) (hm : 0 < m) :
    determineWinner [(n, some m)] = (m, [n]) := by
  simp [determineWinner, hm]

theorem strAppend_assoc (a b c : String) : a ++ b ++ c = a ++ (b ++ c) := by
  cases a with
  | mk da =>
    cases b with
    | mk db =>
      cases c with
      | mk dc =>
        show String.mk (da ++ db ++ dc) = String.mk (da ++ (db ++ dc))
        rw [List.append_assoc]

/-- Witness for C5: a concrete failing session performs no write and
reports the quota error; a concrete successful session performs exactly the
two artifact writes. -/
theorem planAction_failure_and_artifacts_witness :
    planActionModel envFail = ([], some ("Planning session failed: " ++ "Quota")) ∧
    planActionModel envOk =
      ([(transcriptPathOf envOk.ts, outOk.transcript),
        (winningPathOf envOk.ts, outOk.winningContent)], none) := by
  constructor
  · exact (planAction_failure_and_artifacts envFail).1 "Quota" _ (by rfl)
  · exact (planAction_failure_and_artifacts envOk).2 outOk _ (by rfl)

/-- C10: when every vote cast in a session fails to parse (all recorded
votes carry the sentinel `"Unknown"`), the session still completes
successfully, the winner set is exactly the singleton `Unknown`, and the
winning-plan document is written with the literal text `undefined` as its
plan body, because no plan with agent name `Unknown` exists in the plan
set. -/
theorem allUnknownVotes_winner (env : SessionEnv) (out : SessionOut) (s1 : SessionSt)
    (h : sessionBody env initSt = (Except.ok out, s1))
    (hv : ∀ v ∈ out.votes, v.votedFor = "Unknown")
    (hne : out.votes ≠ [])
    (hp : ∀ p ∈ out.plans, p.agentName ≠ "Unknown") :
    out.winners = ["Unknown"] ∧ out.maxVotes = out.votes.length ∧
    out.winningContent =
      "# Winning Plan\n\n**Problem:** " ++ env.query ++ "\n\n" ++
      ("> **Winner:** " ++ "Unknown" ++ "\x27s Plan\n\n") ++ "**Votes:** " ++
      toString out.votes.length ++ "/" ++ toString out.votes.length ++
      "\n\n---\n\n" ++ "undefined" ∧
    s1.writes = [(transcriptPathOf env.ts, out.transcript),
                 (winningPathOf env.ts, out.winningContent)] := by
  obtain ⟨⟨personas, plans, rl, plansV, sc, votes, hout⟩, hwr⟩ :=
    sessionBody_ok env initSt out s1 h
  subst hout
  simp only [mkSessionOut] at hv hne hp ⊢
  have hvc : voteCounts votes = [("Unknown", some votes.length)] :=
    voteCounts_all_unknown "Unknown" votes hne (by decide) (by decide) hv
  have hpos : 0 < votes.length := by
    cases votes with
    | nil => exact absurd rfl hne
    | cons v t => simp
  have hdw : determineWinner (voteCounts votes) = (votes.length, ["Unknown"]) := by
    rw [hvc]
    exact determineWinner_single "Unknown" votes.length hpos
  have hfind : findPlanFor plansV "Unknown" = none := by
    unfold findPlanFor
    rw [List.find?_eq_none]
    intro p hmem
    simpa using hp p hmem
  refine ⟨by simp [hdw], by simp [hdw], ?_, ?_⟩
  · rw [hdw]
    unfold winningContentOf
    simp only [List.length_cons, List.length_nil, List.headD]
    have hns : ¬ ("Unknown" : String) = "Synthesized Plan" := by decide
    rw [if_pos trivial, if_neg hns, if_neg hns, hfind]
    rfl
  · simpa [initSt] using hwr

/-- Witness for C10 at a concrete session in which every vote response is
unparsable. -/
theorem allUnknownVotes_winner_witness :
    outU.winners = ["Unknown"] ∧ outU.maxVotes = outU.votes.length ∧
    outU.winningContent =
      "# Winning Plan\n\n**Problem:** " ++ envU.query ++ "\n\n" ++
      ("> **Winner:** " ++ "Unknown" ++ "\x27s Plan\n\n") ++ "**Votes:** " ++
      toString outU.votes.length ++ "/" ++ toString outU.votes.length ++
      "\n\n---\n\n" ++ "undefined" ∧
    (sessionBody envU initSt).2.writes =
      [(transcriptPathOf envU.ts, outU.transcript),
       (winningPathOf envU.ts, outU.winningContent)] :=
  allUnknownVotes_winner envU outU (sessionBody envU initSt).2 (by rfl)
    (by decide) (by decide) (by decide)

theorem votesFrom_names (env : SessionEnv) (txt : String) :
    ∀ (k : Nat) (personas : List Persona),
      (votesFrom env txt k personas).map (·.voterName) = personas.map (·.name)
  | _, [] => rfl
  | k, a :: rest => by
    have ih := votesFrom_names env txt (k + 1) rest
    simp only [votesFrom, List.map_cons, ih, List.cons.injEq, and_true]
    unfold voteAtIdx voteOf
    cases hx : extractVote env.jparse (getOk (env.g k (votePromptOf txt))) with
    | none => rfl
    | some pr =>
      obtain ⟨v, r⟩ := pr
      rfl

theorem votingLoop_ok (env : SessionEnv) (txt : String)
    (hg : ∀ n, ∃ r, env.g n (votePromptOf txt) = Except.ok r) :
    ∀ (personas : List Persona) (s : SessionSt),
      votingLoop env txt personas s =
        (Except.ok (votesFrom env txt s.calls personas),
         ⟨s.calls + personas.length, s.writes⟩)
  | [], s => by simp [votingLoop, votesFrom, mpure]
  | a :: rest, s => by
    obtain ⟨r, hr⟩ := hg s.calls
    have hgen : genCall env (votePromptOf txt) s =
        (Except.ok r, ⟨s.calls + 1, s.writes⟩) := by
      unfold genCall
      rw [hr]
    have hvote : voteOf env.jparse a.name r = voteAtIdx env txt s.calls a := by
      unfold voteAtIdx
      rw [hr]
      rfl
    have harith : s.calls + 1 + rest.length = s.calls + (a :: rest).length := by
      simp only [List.length_cons]
      omega
    unfold votingLoop
    simp only [sessBind_eq, sessPure_eq]
    rw [mbind_ok hgen]
    rw [mbind_ok (show cooldownM ⟨s.calls + 1, s.writes⟩ =
      (Except.ok (), ⟨s.calls + 1, s.writes⟩) from rfl)]
    rw [mbind_ok (votingLoop_ok env txt hg rest ⟨s.calls + 1, s.writes⟩)]
    unfold mpure
    rw [hvote, harith]
    simp [votesFrom]

/-- C6: in the voting phase (given that every generation call itself
succeeds), the loop never throws, records exactly one vote per agent in
instantiation order with the agent as voter, and every voter whose
response cannot be extracted into an object with string `votedFor` and
`reason` fields gets the sentinel vote
`votedFor = "Unknown"` with reason `Failed to parse vote`. -/
theorem votingPhase_unknown_sentinel (env : SessionEnv) (txt : String)
    (personas : List Persona) (s : SessionSt)
    (hg : ∀ n, ∃ r, env.g n (votePromptOf txt) = Except.ok r) :
    votingLoop env txt personas s =
      (Except.ok (votesFrom env txt s.calls personas),
       ⟨s.calls + personas.length, s.writes⟩) ∧
    (votesFrom env txt s.calls personas).length = personas.length ∧
    (votesFrom env txt s.calls personas).map (·.voterName) = personas.map (·.name) ∧
    (∀ (k : Nat) (a : Persona),
      extractVote env.jparse (getOk (env.g k (votePromptOf txt))) = none →
        voteAtIdx env txt k a = ⟨a.name, "Unknown", "Failed to parse vote"⟩) := by
  refine ⟨votingLoop_ok env txt hg personas s, ?_, votesFrom_names env txt s.calls personas, ?_⟩
  · have := congrArg List.length (votesFrom_names env txt s.calls personas)
    simpa using this
  · intro k a hx
    unfold voteAtIdx voteOf
    rw [hx]

/-- Witness for C6 at a concrete voting phase whose single response is
unparsable. -/
theorem votingPhase_unknown_sentinel_witness :
    votingLoop envU "FT" [⟨"N", "dN", none⟩] initSt =
      (Except.ok (votesFrom envU "FT" initSt.calls [⟨"N", "dN", none⟩]),
       ⟨initSt.calls + [(⟨"N", "dN", none⟩ : Persona)].length, initSt.writes⟩) ∧
    (votesFrom envU "FT" initSt.calls [⟨"N", "dN", none⟩]).length =
      [(⟨"N", "dN", none⟩ : Persona)].length ∧
    (votesFrom envU "FT" initSt.calls [⟨"N", "dN", none⟩]).map (·.voterName) =
      [(⟨"N", "dN", none⟩ : Persona)].map (·.name) ∧
    (∀ (k : Nat) (a : Persona),
      extractVote envU.jparse (getOk (envU.g k (votePromptOf "FT"))) = none →
        voteAtIdx envU "FT" k a = ⟨a.name, "Unknown", "Failed to parse vote"⟩) :=
  votingPhase_unknown_sentinel envU "FT" [⟨"N", "dN", none⟩] initSt
    (fun _ => ⟨"zzz", rfl⟩)

theorem jsReplaceAux_no_match (key v : List Char) :
    ∀ (f : Nat) (pre s : List Char), hasKeyMatch key s = false →
      jsReplaceAux key v f pre s = s
  | 0, _, _, _ => rfl
  | _ + 1, _, [], _ => rfl
  | f + 1, pre, c :: rest, h => by
    have h' := h
    unfold hasKeyMatch at h'
    have h1 : matchKeyAt key (c :: rest) = none := by
      cases hm : matchKeyAt key (c :: rest) with
      | none => rfl
      | some pr => rw [hm] at h'; simp at h'
    have h2 : hasKeyMatch key rest = false := by
      rw [h1] at h'
      simpa using h'
    unfold jsReplaceAux
    rw [h1, jsReplaceAux_no_match key v f (pre ++ [c]) rest h2]

theorem jsReplace_no_match (key v s : List Char) (h : hasKeyMatch key s = false) :
    jsReplace key v s = s :=
  jsReplaceAux_no_match key v s.length [] s h

theorem valPlansFrom_names (env : SessionEnv) (plans : List Plan) :
    ∀ (k : Nat) (personas : List Persona),
      (valPlansFrom env plans k personas).map (·.agentName) = personas.map (·.name)
  | _, [] => rfl
  | k, a :: rest => by
    simp [valPlansFrom, valPlanAtIdx, valPlansFrom_names env plans (k + 1) rest]

theorem validationLoop_ok (env : SessionEnv) (plans : List Plan)
    (hg : ∀ n p, ∃ r, env.g n p = Except.ok r) :
    ∀ (personas : List Persona) (s : SessionSt),
      validationLoop env plans personas s =
        (Except.ok (valPlansFrom env plans s.calls personas),
         ⟨s.calls + personas.length, s.writes⟩)
  | [], s => by simp [validationLoop, valPlansFrom, mpure]
  | a :: rest, s => by
    obtain ⟨r, hr⟩ := hg s.calls (validationPromptFor env a plans)
    have hgen : genCall env (validationPromptFor env a plans) s =
        (Except.ok r, ⟨s.calls + 1, s.writes⟩) := by
      unfold genCall
      rw [hr]
    have hplan : (⟨a.name, r⟩ : Plan) = valPlanAtIdx env plans s.calls a := by
      unfold valPlanAtIdx
      rw [hr]
      rfl
    have harith : s.calls + 1 + rest.length = s.calls + (a :: rest).length := by
      simp only [List.length_cons]
      omega
    unfold validationLoop
    simp only [sessBind_eq, sessPure_eq]
    rw [mbind_ok hgen]
    rw [mbind_ok (show cooldownM ⟨s.calls + 1, s.writes⟩ =
      (Except.ok (), ⟨s.calls + 1, s.writes⟩) from rfl)]
    rw [mbind_ok (validationLoop_ok env plans hg rest ⟨s.calls + 1, s.writes⟩)]
    unfold mpure
    rw [hplan, harith]
    simp [valPlansFrom]

/-- C3 counterexample: with the spec-modelled validation template (which
references only the problem statement and the agents own plan), the
validation prompt is still not a function of the agents own plan and the
problem statement alone, and can contain another agents plan content: the
source passes the peers plans into the substitution map under
`other_plans`, and `buildPrompt` substitutes `own_plan` first, so an own
plan containing the literal `other_plans` placeholder pulls the peers
content into the prompt.  Concretely, agent A with own plan equal to the
placeholder text receives a prompt containing agent B secret content, and
changing only agent B plan changes agent A prompt. -/
theorem validationPrompt_leaks_peer_content :
    containsSubstr (validationPromptFor env3 agentA plansX).data "SECRETB".data = true ∧
    validationPromptFor env3 agentA plansX ≠ validationPromptFor env3 agentA plansY := by
  constructor
  · rfl
  · decide

/-- C3 (amended): the validation prompt is built from the agents own latest
plan, the problem statement and fixed persona and template data; the peers
plans enter the substitution map (under `other_plans`) but, provided the
partially substituted template contains no `other_plans` placeholder match
(the spec-modelled template has none, and no earlier-substituted value
injects one), the prompt is independent of the peers plans; and the
validation phase output fully replaces the current plan set — one plan per
agent, in instantiation order. -/
theorem validation_own_plan_only (env : SessionEnv) (agent : Persona)
    (plans plans' : List Plan)
    (hown : ownPlanOf plans agent.name = ownPlanOf plans' agent.name)
    (hinj : hasKeyMatch "other_plans".data
      (substFour env.prompts.validation.template agent.name agent.description env.query
        (ownPlanOf plans agent.name)) = false) :
    validationPromptFor env agent plans = validationPromptFor env agent plans' ∧
    (∀ (plans0 : List Plan) (personas : List Persona) (s : SessionSt),
      (∀ n p, ∃ r, env.g n p = Except.ok r) →
      validationLoop env plans0 personas s =
        (Except.ok (valPlansFrom env plans0 s.calls personas),
         ⟨s.calls + personas.length, s.writes⟩) ∧
      (valPlansFrom env plans0 s.calls personas).map (·.agentName) =
        personas.map (·.name)) := by
  constructor
  · have hinjL : hasKeyMatch ['o', 't', 'h', 'e', 'r', '_', 'p', 'l', 'a', 'n', 's']
        (jsReplace ['o', 'w', 'n', '_', 'p', 'l', 'a', 'n'] (ownPlanOf plans agent.name).data
          (jsReplace ['q', 'u', 'e', 'r', 'y'] env.query.data
            (jsReplace
              ['p', 'e', 'r', 's', 'o', 'n', 'a', '.', 'd', 'e', 's', 'c', 'r', 'i', 'p',
               't', 'i', 'o', 'n'] agent.description.data
              (jsReplace ['p', 'e', 'r', 's', 'o', 'n', 'a', '.', 'n', 'a', 'm', 'e']
                agent.name.data env.prompts.validation.template.data)))) = false := hinj
    unfold validationPromptFor validationVars buildPrompt substAll
    simp only [List.foldl_cons, List.foldl_nil]
    rw [← hown]
    rw [jsReplace_no_match _ _ _ hinjL, jsReplace_no_match _ _ _ hinjL]
  · intro plans0 personas s hg
    exact ⟨validationLoop_ok env plans0 hg personas s,
      valPlansFrom_names env plans0 s.calls personas⟩

/-- Witness for the amended C3 theorem at a concrete validation phase. -/
theorem validation_own_plan_only_witness :
    validationPromptFor env3 agentA [⟨"A", "myplan"⟩, ⟨"B", "X"⟩] =
      validationPromptFor env3 agentA [⟨"A", "myplan"⟩, ⟨"B", "Y"⟩] ∧
    (∀ (plans0 : List Plan) (personas : List Persona) (s : SessionSt),
      (∀ n p, ∃ r, env3.g n p = Except.ok r) →
      validationLoop env3 plans0 personas s =
        (Except.ok (valPlansFrom env3 plans0 s.calls personas),
         ⟨s.calls + personas.length, s.writes⟩) ∧
      (valPlansFrom env3 plans0 s.calls personas).map (·.agentName) =
        personas.map (·.name)) :=
  validation_own_plan_only env3 agentA [⟨"A", "myplan"⟩, ⟨"B", "X"⟩]
    [⟨"A", "myplan"⟩, ⟨"B", "Y"⟩] rfl (by decide)

/-- C8: when the fixed persona catalog is empty (or unavailable — the
source folds the two cases together) and the persona-generation response is
unparsable as an array, `generatePersonas` returns exactly `count` personas
named `Agent_1` through `Agent_count`, each with the templated description
referencing its index; `generatePersonas` is a total function, so in this
configuration it never fails. -/
theorem generatePersonas_fallback (shuffled : List PersonaDefinition)
    (jparse : String → Option JsonValue) (fullText : String) (count : Nat)
    (h : ∀ xs, safeParseJSON jparse fullText ≠ some (JsonValue.jarr xs)) :
    generatePersonas [] shuffled jparse fullText count = fallbackPersonas count ∧
    (generatePersonas [] shuffled jparse fullText count).length = count ∧
    (generatePersonas [] shuffled jparse fullText count).map (·.name) =
      (List.range count).map (fun i => "Agent_" ++ toString (i + 1)) ∧
    (generatePersonas [] shuffled jparse fullText count).map (·.description) =
      (List.range count).map (fun i =>
        "An expert agent focused on aspect " ++ toString (i + 1) ++ " of the problem.") := by
  have hgen : generatePersonas [] shuffled jparse fullText count = fallbackPersonas count := by
    unfold generatePersonas
    rw [if_neg (by simp)]
    cases hj : safeParseJSON jparse fullText with
    | none => rfl
    | some v =>
      cases v with
      | jarr xs => exact absurd hj (h xs)
      | jnull => rfl
      | jbool b => rfl
      | jnum s => rfl
      | jstr s => rfl
      | jobj fs => rfl
  refine ⟨hgen, ?_, ?_, ?_⟩ <;> rw [hgen] <;>
    simp [fallbackPersonas, List.map_map, Function.comp]

/-- Witness for C8 at a concrete unparsable response. -/
theorem generatePersonas_fallback_witness :
    generatePersonas [] [] jpNone "Invalid JSON" 3 = fallbackPersonas 3 ∧
    (generatePersonas [] [] jpNone "Invalid JSON" 3).length = 3 ∧
    (generatePersonas [] [] jpNone "Invalid JSON" 3).map (·.name) =
      (List.range 3).map (fun i => "Agent_" ++ toString (i + 1)) ∧
    (generatePersonas [] [] jpNone "Invalid JSON" 3).map (·.description) =
      (List.range 3).map (fun i =>
        "An expert agent focused on aspect " ++ toString (i + 1) ++ " of the problem.") :=
  generatePersonas_fallback [] jpNone "Invalid JSON" 3
    (fun xs hx => by
      rw [show safeParseJSON jpNone "Invalid JSON" = (none : Option JsonValue) from rfl] at hx
      exact Option.noConfusion hx)

/-- C7 counterexample: agent names are not always pairwise distinct.  On
the AI-generation fallback path the parsed persona array is returned
verbatim with no disambiguation, so a response naming two personas `A`
yields two personas (hence two instantiated agents) with the same name. -/
theorem generatePersonas_duplicate_names :
    (generatePersonas [] [] jpDup dupStr 2).map (·.name) = ["A", "A"] ∧
    ¬ ((generatePersonas [] [] jpDup dupStr 2).map (·.name)).Nodup := by
  constructor
  · rfl
  · decide

/-- C7 (amended): the persona source yields pairwise distinct names on the
catalog path (for a duplicate-free catalog, whatever shuffle `Math.random`
produces and whatever count is requested) and on the synthetic fallback
(for the session-clamped agent counts, at most six); the AI-generation path
returns the parsed array without disambiguation, so duplicates there
propagate to the instantiated agents (see the counterexample). -/
theorem generatePersonas_unique_names (catalog shuffled : List PersonaDefinition)
    (jparse : String → Option JsonValue) (fullText : String) (count : Nat)
    (hcat : catalog ≠ [])
    (hperm : shuffled.Perm catalog)
    (hnd : (catalog.map (·.name)).Nodup)
    (hc : count ≤ 6) :
    generatePersonas catalog shuffled jparse fullText count =
      selectedFromCatalog shuffled count ∧
    ((selectedFromCatalog shuffled count).map (·.name)).Nodup ∧
    ((fallbackPersonas count).map (·.name)).Nodup := by
  refine ⟨?_, ?_, ?_⟩
  · unfold generatePersonas
    rw [if_pos]
    exact List.length_pos.mpr hcat
  · have h1 : (shuffled.map (·.name)).Nodup := (hperm.map (·.name)).nodup_iff.mpr hnd
    have h2 : ((selectedFromCatalog shuffled count).map (·.name)) =
        (shuffled.map (·.name)).take (min count shuffled.length) := by
      unfold selectedFromCatalog
      rw [List.map_map, ← List.map_take]
      rfl
    rw [h2]
    exact (List.take_sublist _ _).nodup h1
  · interval_cases count <;> decide

/-- Witness for the amended C7 theorem at a concrete duplicate-free
catalog. -/
theorem generatePersonas_unique_names_witness :
    generatePersonas catalog2 catalog2 jpNone "" 2 = selectedFromCatalog catalog2 2 ∧
    ((selectedFromCatalog catalog2 2).map (·.name)).Nodup ∧
    ((fallbackPersonas 2).map (·.name)).Nodup :=
  generatePersonas_unique_names catalog2 catalog2 jpNone "" 2 (by decide)
    (List.Perm.refl _) (by decide) (by decide)

theorem runPhaseTimed_values (cool : Nat) (gen : Persona → String) (lat : Persona → Nat) :
    ∀ (agents : List Persona) (t0 : Nat),
      (runPhaseTimed cool gen lat agents t0).map (·.value) = agents.map gen
  | [], _ => rfl
  | a :: rest, t0 => by
    simp [runPhaseTimed, runPhaseTimed_values cool gen lat rest (t0 + lat a + cool)]

theorem runPhaseTimed_chain (cool : Nat) (gen : Persona → String) (lat : Persona → Nat) :
    ∀ (agents : List Persona) (t0 : Nat),
      List.Chain' (fun x y => y.startT = x.finishT + cool)
        (runPhaseTimed cool gen lat agents t0)
  | [], _ => List.chain'_nil
  | [a], t0 => by simp [runPhaseTimed]
  | a :: b :: rest, t0 => by
    have ih := runPhaseTimed_chain cool gen lat (b :: rest) (t0 + lat a + cool)
    simp only [runPhaseTimed] at ih ⊢
    exact List.chain'_cons.mpr ⟨rfl, ih⟩

/-- C4: every fan-out phase executes agents strictly sequentially in
instantiation order with the fixed 1000-millisecond cooldown between one
agent completing and the next starting (the timed skeleton of the four
phase loops): the result sequence equals the agent list mapped in order —
regardless of per-agent latency, so never by completion order — and each
agent starts exactly one cooldown after the previous agent finished. -/
theorem phase_sequencing (gen : Persona → String) (lat : Persona → Nat)
    (agents : List Persona) (t0 : Nat) :
    (runPhaseTimed 1000 gen lat agents t0).map (·.value) = agents.map gen ∧
    List.Chain' (fun x y => y.startT = x.finishT + 1000)
      (runPhaseTimed 1000 gen lat agents t0) ∧
    (∀ lat' : Persona → Nat,
      (runPhaseTimed 1000 gen lat' agents t0).map (·.value) =
        (runPhaseTimed 1000 gen lat agents t0).map (·.value)) :=
  ⟨runPhaseTimed_values 1000 gen lat agents t0,
   runPhaseTimed_chain 1000 gen lat agents t0,
   fun lat' => (runPhaseTimed_values 1000 gen lat' agents t0).trans
     (runPhaseTimed_values 1000 gen lat agents t0).symm⟩

theorem countVotes_cons (v : Vote) (t : List Vote) (name : String) :
    countVotes (v :: t) name =
      (if v.votedFor = name then 1 else 0) + countVotes t name := by
  unfold countVotes
  rw [List.filter_cons]
  by_cases h : v.votedFor = name
  · simp [h, Nat.add_comm]
  · simp [h]

theorem tallyLookup_bump :
    ∀ (m : List (String × Nat)) (k k' : String),
      tallyLookup (bumpExact m k) k' =
        if k' = k then some ((tallyLookup m k).getD 0 + 1) else tallyLookup m k'
  | [], k, k' => by
    by_cases h : k' = k
    · subst h
      simp [bumpExact, tallyLookup, List.find?]
    · have h2 : ¬ k = k' := fun hh => h hh.symm
      simp [bumpExact, tallyLookup, List.find?, h, h2]
  | e :: t, k, k' => by
    by_cases he : e.1 = k
    · unfold bumpExact
      rw [if_pos he]
      by_cases hk : k' = k
      · subst hk
        simp [tallyLookup, List.find?, he]
      · have he' : ¬ e.1 = k' := fun hh => hk (hh ▸ he.symm ▸ rfl)
        simp only [tallyLookup, List.find?]
        have hd1 : (decide (e.1 = k')) = false := by simp [he']
        simp [hd1, hk]
    · unfold bumpExact
      rw [if_neg he]
      by_cases hek : e.1 = k'
      · have hk : ¬ k' = k := fun hh => he (by rw [hek, hh])
        simp [tallyLookup, List.find?, hek, hk]
      · have ih := tallyLookup_bump t k k'
        simp only [tallyLookup, List.find?] at ih ⊢
        have hd1 : (decide (e.1 = k')) = false := by simp [hek]
        simp only [hd1, Bool.false_eq_true, if_false]
        rw [ih]
        by_cases hk : k' = k
        · subst hk
          have hd2 : (decide (e.1 = k')) = false := by simp [hek]
          simp [hd2, he]
        · simp [hk]

theorem exactCounts_fold :
    ∀ (votes : List Vote) (m : List (String × Nat)) (name : String),
      tallyLookup (votes.foldl (fun m v => bumpExact m v.votedFor) m) name =
        match tallyLookup m name with
        | some c => some (c + countVotes votes name)
        | none =>
          if 0 < countVotes votes name then some (countVotes votes name) else none
  | [], m, name => by
    cases h : tallyLookup m name <;> simp [countVotes, h]
  | v :: t, m, name => by
    have ih := exactCounts_fold t (bumpExact m v.votedFor) name
    simp only [List.foldl_cons]
    rw [ih, tallyLookup_bump m v.votedFor name, countVotes_cons]
    by_cases hv : v.votedFor = name
    · subst hv
      rw [if_pos rfl, if_pos rfl]
      cases h : tallyLookup m v.votedFor with
      | none =>
        have hpos : 0 < 1 + countVotes t v.votedFor := by omega
        simp [h, hpos]
      | some c =>
        simp [h]
        omega
    · have hv' : ¬ name = v.votedFor := fun hh => hv hh.symm
      rw [if_neg hv', if_neg hv]
      cases h : tallyLookup m name with
      | none => simp [h]
      | some c => simp [h]

theorem exactCounts_lookup (votes : List Vote) (name : String) :
    tallyLookup (exactCounts votes) name =
      if 0 < countVotes votes name then some (countVotes votes name) else none := by
  have h := exactCounts_fold votes [] name
  simpa [exactCounts, tallyLookup, List.find?] using h

theorem bumpExact_keys (k : String) :
    ∀ m : List (String × Nat), (bumpExact m k).map Prod.fst =
      if k ∈ m.map Prod.fst then m.map Prod.fst else m.map Prod.fst ++ [k]
  | [] => by simp [bumpExact]
  | e :: t => by
    by_cases he : e.1 = k
    · simp [bumpExact, he]
    · simp only [bumpExact, if_neg he, List.map_cons]
      rw [bumpExact_keys k t]
      by_cases hk : k ∈ t.map Prod.fst
      · simp [hk]
      · have hk2 : ¬ k ∈ e.1 :: t.map Prod.fst := by
          simp only [List.mem_cons, not_or]
          exact ⟨fun hh => he hh.symm, hk⟩
        simp [hk, hk2]

theorem exactCounts_keys_nodup (votes : List Vote) :
    ((exactCounts votes).map Prod.fst).Nodup := by
  suffices h : ∀ (vs : List Vote) (m : List (String × Nat)), (m.map Prod.fst).Nodup →
      ((vs.foldl (fun m v => bumpExact m v.votedFor) m).map Prod.fst).Nodup by
    exact h votes [] (by simp)
  intro vs
  induction vs with
  | nil => intro m hm; simpa using hm
  | cons v t ih =>
    intro m hm
    simp only [List.foldl_cons]
    apply ih
    rw [bumpExact_keys]
    split
    · exact hm
    · rename_i hnotmem
      rw [List.nodup_append]
      refine ⟨hm, by simp, ?_⟩
      intro a ha hb
      simp only [List.mem_singleton] at hb
      subst hb
      exact hnotmem ha

theorem lookup_of_mem_nodup :
    ∀ (l : List (String × Nat)) (e : String × Nat), (l.map Prod.fst).Nodup → e ∈ l →
      tallyLookup l e.1 = some e.2
  | [], e, _, h => absurd h (by simp)
  | f :: t, e, hnd, hmem => by
    rcases List.mem_cons.mp hmem with he | ht
    · subst he
      simp [tallyLookup, List.find?]
    · have hnd' : (t.map Prod.fst).Nodup := (List.nodup_cons.mp (by simpa using hnd)).2
      have hf : f.1 ∉ t.map Prod.fst := (List.nodup_cons.mp (by simpa using hnd)).1
      have hne : ¬ f.1 = e.1 := by
        intro hh
        exact hf (hh ▸ List.mem_map_of_mem Prod.fst ht)
      have ih := lookup_of_mem_nodup t e hnd' ht
      simp only [tallyLookup, List.find?] at ih ⊢
      have hd : (decide (f.1 = e.1)) = false := by simp [hne]
      simp only [hd, Bool.false_eq_true, if_false]
      exact ih

theorem mem_of_lookup (l : List (String × Nat)) (n : String) (c : Nat)
    (h : tallyLookup l n = some c) : (n, c) ∈ l := by
  unfold tallyLookup at h
  cases hf : l.find? (fun e => e.1 = n) with
  | none => rw [hf] at h; exact Option.noConfusion h
  | some e =>
    rw [hf] at h
    simp only [Option.map_some'] at h
    have hmem := List.mem_of_find?_eq_some hf
    have hp := List.find?_some hf
    have h1 : e.1 = n := by simpa using hp
    have h2 : e.2 = c := by simpa using h
    obtain ⟨e1, e2⟩ := e
    simp only at h1 h2
    subst h1
    subst h2
    exact hmem

theorem le_listMax :
    ∀ (l : List (String × Nat)) (e : String × Nat), e ∈ l → e.2 ≤ listMax l
  | [], e, h => absurd h (by simp)
  | f :: t, e, h => by
    rcases List.mem_cons.mp h with he | ht
    · subst he
      show e.2 ≤ max e.2 (listMax t)
      exact le_max_left _ _
    · have := le_listMax t e ht
      show e.2 ≤ max f.2 (listMax t)
      exact le_trans this (le_max_right _ _)

theorem listMax_attained :
    ∀ (l : List (String × Nat)), l ≠ [] → ∃ e ∈ l, e.2 = listMax l
  | [], h => absurd rfl h
  | f :: t, _ => by
    by_cases hlt : f.2 < listMax t
    · have htne : t ≠ [] := by
        intro hh
        rw [hh] at hlt
        simp [listMax] at hlt
      obtain ⟨e, hmem, he⟩ := listMax_attained t htne
      refine ⟨e, by simp [hmem], ?_⟩
      show e.2 = max f.2 (listMax t)
      rw [Nat.max_eq_right (Nat.le_of_lt hlt)]
      exact he
    · refine ⟨f, by simp, ?_⟩
      show f.2 = max f.2 (listMax t)
      rw [Nat.max_eq_left (Nat.le_of_not_lt hlt)]

theorem cv_pos_exists (votes : List Vote) (name : String)
    (h : 0 < countVotes votes name) : ∃ v ∈ votes, v.votedFor = name := by
  unfold countVotes at h
  have hne : votes.filter (fun v => v.votedFor = name) ≠ [] := by
    intro hh
    rw [hh] at h
    simp at h
  obtain ⟨v, hv⟩ := List.exists_mem_of_ne_nil _ hne
  have hm := List.mem_filter.mp hv
  exact ⟨v, hm.1, by simpa using hm.2⟩

theorem cv_self_pos (votes : List Vote) (v : Vote) (hm : v ∈ votes) :
    0 < countVotes votes v.votedFor := by
  unfold countVotes
  have hmem : v ∈ votes.filter (fun w => w.votedFor = v.votedFor) :=
    List.mem_filter.mpr ⟨hm, by simp⟩
  exact List.length_pos.mpr (List.ne_nil_of_mem hmem)

theorem winner_scan :
    ∀ (l : List (String × Nat)) (m : Nat) (w : List String),
      (∀ e ∈ l, 1 ≤ e.2) →
      List.foldl
        (fun acc e =>
          if e.2 > acc.1 then (e.2, [e.1])
          else if e.2 = acc.1 then (acc.1, acc.2 ++ [e.1])
          else acc)
        (m, w) l =
      (max m (listMax l),
       (if max m (listMax l) = m then w else []) ++
         (l.filter (fun e => e.2 = max m (listMax l))).map Prod.fst)
  | [], m, w, _ => by
    simp [listMax, Nat.max_zero]
  | e :: t, m, w, h => by
    have he : 1 ≤ e.2 := h e (by simp)
    have ht : ∀ x ∈ t, 1 ≤ x.2 := fun x hx => h x (by simp [hx])
    have hLM : listMax (e :: t) = max e.2 (listMax t) := rfl
    have hstep : (if e.2 > (m, w).1 then (e.2, [e.1])
        else if e.2 = (m, w).1 then ((m, w).1, (m, w).2 ++ [e.1]) else (m, w)) =
        (if e.2 > m then (e.2, [e.1])
         else if e.2 = m then (m, w ++ [e.1]) else (m, w)) := rfl
    rw [List.foldl_cons, hstep]
    by_cases h1 : e.2 > m
    · rw [if_pos h1, winner_scan t e.2 [e.1] ht]
      have hM : max m (listMax (e :: t)) = max e.2 (listMax t) := by
        rw [hLM]
        exact max_eq_right (le_trans (le_of_lt h1) (le_max_left _ _))
      rw [hM]
      have hMm : ¬ max e.2 (listMax t) = m := by
        have hle : e.2 ≤ max e.2 (listMax t) := le_max_left _ _
        intro hh
        rw [hh] at hle
        omega
      rw [if_neg hMm, List.filter_cons]
      by_cases h2 : e.2 = max e.2 (listMax t)
      · simp [h2.symm]
      · have h2' : ¬ max e.2 (listMax t) = e.2 := fun hh => h2 hh.symm
        simp [h2, h2']
    · by_cases h2 : e.2 = m
      · rw [if_neg h1, if_pos h2, winner_scan t m (w ++ [e.1]) ht]
        have hM : max m (listMax (e :: t)) = max m (listMax t) := by
          rw [hLM, h2, ← max_assoc, max_self]
        rw [hM, List.filter_cons]
        by_cases h3 : max m (listMax t) = m
        · have h4 : e.2 = max m (listMax t) := by rw [h3]; exact h2
          have h5 : listMax t ≤ m := max_eq_left_iff.mp h3
          rw [if_pos h3]
          simp [h4, List.append_assoc, h5]
        · have h4 : ¬ e.2 = max m (listMax t) := fun hh => h3 (by rw [← hh, h2])
          rw [if_neg h3]
          simp [h4]
          intro hle
          exact absurd (max_eq_left hle) h3
      · have h3 : e.2 < m := by omega
        rw [if_neg h1, if_neg h2, winner_scan t m w ht]
        have hM : max m (listMax (e :: t)) = max m (listMax t) := by
          rw [hLM, ← max_assoc, max_eq_left (le_of_lt h3)]
        rw [hM, List.filter_cons]
        have h4 : ¬ e.2 = max m (listMax t) := by
          have hle : m ≤ max m (listMax t) := le_max_left _ _
          intro hh
          omega
        simp [h4]

theorem setOwn_cons_ne (e : String × Option Nat) (t : List (String × Option Nat))
    (k : String) (v : Option Nat) (h : ¬ e.1 = k) :
    setOwn (e :: t) k v = e :: setOwn t k v := by
  simp [setOwn, h]

theorem bumpExact_pos :
    ∀ (m : List (String × Nat)) (k : String), (∀ e ∈ m, 0 < e.2) →
      ∀ e ∈ bumpExact m k, 0 < e.2
  | [], k, _, e, he => by
    simp [bumpExact] at he
    simp [he]
  | f :: t, k, hm, e, he => by
    simp only [bumpExact] at he
    by_cases hf : f.1 = k
    · rw [if_pos hf] at he
      rcases List.mem_cons.mp he with h1 | h2
      · subst h1
        exact Nat.succ_pos f.2
      · exact hm e (by simp [h2])
    · rw [if_neg hf] at he
      rcases List.mem_cons.mp he with h1 | h2
      · subst h1
        exact hm e (by simp)
      · exact bumpExact_pos t k (fun x hx => hm x (by simp [hx])) e h2

theorem bumpTally_mapSome (k : String) (hk1 : ¬ k = "__proto__") (hk2 : k ∉ protoFns) :
    ∀ m : List (String × Nat), (∀ e ∈ m, 0 < e.2) →
      bumpTally (mapSome m) k = mapSome (bumpExact m k)
  | [], _ => by
    have hg : getOwn (mapSome ([] : List (String × Nat))) k = none := rfl
    unfold bumpTally
    rw [hg]
    simp only [bumpStep]
    rw [if_neg hk1, if_neg hk2]
    simp [setOwn, bumpExact, mapSome]
  | f :: t, hpos => by
    have ht : ∀ x ∈ t, 0 < x.2 := fun x hx => hpos x (by simp [hx])
    by_cases hf : f.1 = k
    · subst hf
      have hfpos : 0 < f.2 := hpos f (by simp)
      have htr : jsTruthyNum (some f.2) = true := by
        simp only [jsTruthyNum, bne_iff_ne, ne_eq]
        omega
      have hg : getOwn (mapSome (f :: t)) f.1 = some (some f.2) := by
        simp [getOwn, mapSome, List.find?]
      unfold bumpTally
      rw [hg]
      simp only [bumpStep, htr, if_true]
      simp [setOwn, bumpExact, mapSome, jsSucc]
    · have hg : getOwn (mapSome (f :: t)) k = getOwn (mapSome t) k := by
        simp [getOwn, mapSome, List.find?, hf]
      have hset : ∀ v, setOwn (mapSome (f :: t)) k v =
          (f.1, some f.2) :: setOwn (mapSome t) k v := by
        intro v
        simp [mapSome, setOwn, hf]
      have hre : mapSome (bumpExact (f :: t) k) =
          (f.1, some f.2) :: mapSome (bumpExact t k) := by
        simp [bumpExact, hf, mapSome]
      have ih := bumpTally_mapSome k hk1 hk2 t ht
      unfold bumpTally at ih ⊢
      rw [hg, hre, ← ih]
      cases hg2 : getOwn (mapSome t) k with
      | none =>
        simp only [bumpStep]
        rw [if_neg hk1, if_neg hk2, if_neg hk1, if_neg hk2, hset]
      | some v =>
        simp only [bumpStep]
        by_cases htr : jsTruthyNum v = true
        · rw [if_pos htr, if_pos htr, hset]
        · rw [if_neg htr, if_neg htr, hset]

theorem voteCounts_eq_exact (votes : List Vote)
    (h : ∀ v ∈ votes, v.votedFor ≠ "__proto__" ∧ v.votedFor ∉ protoFns) :
    voteCounts votes = mapSome (exactCounts votes) := by
  suffices hs : ∀ (vs : List Vote) (m : List (String × Nat)), (∀ e ∈ m, 0 < e.2) →
      (∀ v ∈ vs, v.votedFor ≠ "__proto__" ∧ v.votedFor ∉ protoFns) →
      vs.foldl (fun m v => bumpTally m v.votedFor) (mapSome m) =
        mapSome (vs.foldl (fun m v => bumpExact m v.votedFor) m) by
    have h0 := hs votes [] (by simp) h
    simpa [voteCounts, exactCounts, mapSome] using h0
  intro vs
  induction vs with
  | nil =>
    intro m _ _
    rfl
  | cons v t ih =>
    intro m hm hv
    simp only [List.foldl_cons]
    rw [bumpTally_mapSome v.votedFor (hv v (by simp)).1 (hv v (by simp)).2 m hm]
    exact ih (bumpExact m v.votedFor) (bumpExact_pos m v.votedFor hm)
      (fun w hw => hv w (by simp [hw]))

theorem determineWinner_mapSome (m : List (String × Nat)) :
    determineWinner (mapSome m) = scanWinner m := by
  suffices hs : ∀ (l : List (String × Nat)) (acc : Nat × List String),
      List.foldl
        (fun acc e =>
          match e.2 with
          | none => acc
          | some c =>
            if c > acc.1 then (c, [e.1])
            else if c = acc.1 then (acc.1, acc.2 ++ [e.1])
            else acc)
        acc (mapSome l) =
      List.foldl
        (fun acc e =>
          if e.2 > acc.1 then (e.2, [e.1])
          else if e.2 = acc.1 then (acc.1, acc.2 ++ [e.1])
          else acc)
        acc l by
    exact hs m (0, [])
  intro l
  induction l with
  | nil =>
    intro acc
    rfl
  | cons e t ih =>
    intro acc
    simp only [mapSome, List.map_cons, List.foldl_cons]
    exact ih _

theorem getOwn_mapSome :
    ∀ (m : List (String × Nat)) (name : String),
      getOwn (mapSome m) name = (tallyLookup m name).map some
  | [], _ => rfl
  | e :: t, name => by
    have ih := getOwn_mapSome t name
    by_cases he : e.1 = name
    · simp [getOwn, mapSome, tallyLookup, List.find?, he]
    · simp only [getOwn, mapSome, List.map_cons, List.find?, tallyLookup] at ih ⊢
      have hd : (decide (e.1 = name)) = false := by simp [he]
      simp only [hd, Bool.false_eq_true, if_false]
      exact ih

theorem exactTally_winner (votes : List Vote) (hne : votes ≠ []) :
    (∀ name, tallyLookup (exactCounts votes) name =
      if 0 < countVotes votes name then some (countVotes votes name) else none) ∧
    (∀ name, countVotes votes name ≤ (scanWinner (exactCounts votes)).1) ∧
    (∃ v ∈ votes, countVotes votes v.votedFor = (scanWinner (exactCounts votes)).1) ∧
    (∀ name, name ∈ (scanWinner (exactCounts votes)).2 ↔
      0 < countVotes votes name ∧
        countVotes votes name = (scanWinner (exactCounts votes)).1) ∧
    (scanWinner (exactCounts votes)).2 ≠ [] := by
  have hlook := exactCounts_lookup votes
  have hnd := exactCounts_keys_nodup votes
  have hmementry : ∀ e ∈ exactCounts votes, 1 ≤ e.2 ∧ countVotes votes e.1 = e.2 := by
    intro e he
    have hl := lookup_of_mem_nodup (exactCounts votes) e hnd he
    rw [hlook e.1] at hl
    by_cases hc : 0 < countVotes votes e.1
    · rw [if_pos hc] at hl
      have hv : countVotes votes e.1 = e.2 := by
        have := Option.some.inj hl
        exact this
      constructor
      · omega
      · exact hv
    · rw [if_neg hc] at hl
      exact absurd hl (by simp)
  have hids : ∀ e ∈ exactCounts votes, 1 ≤ e.2 := fun e he => (hmementry e he).1
  have hdw : scanWinner (exactCounts votes) =
      (listMax (exactCounts votes),
       ((exactCounts votes).filter
         (fun e => e.2 = listMax (exactCounts votes))).map Prod.fst) := by
    unfold scanWinner
    rw [winner_scan (exactCounts votes) 0 [] hids]
    rw [max_eq_right (Nat.zero_le _)]
    simp [ite_self]
  have htne : exactCounts votes ≠ [] := by
    cases votes with
    | nil => exact absurd rfl hne
    | cons v t =>
      have hvp : 0 < countVotes (v :: t) v.votedFor :=
        cv_self_pos (v :: t) v (by simp)
      have hl := hlook v.votedFor
      rw [if_pos hvp] at hl
      intro hh
      rw [hh] at hl
      simp [tallyLookup, List.find?] at hl
  obtain ⟨e, hemem, heq⟩ := listMax_attained (exactCounts votes) htne
  have hent := hmementry e hemem
  have h0e : 0 < countVotes votes e.1 := by
    rw [hent.2]
    exact hent.1
  obtain ⟨v, hvmem, hvfor⟩ := cv_pos_exists votes e.1 h0e
  refine ⟨hlook, ?_, ⟨v, hvmem, ?_⟩, ?_, ?_⟩
  · intro name
    by_cases h0 : 0 < countVotes votes name
    · have hsome : tallyLookup (exactCounts votes) name =
          some (countVotes votes name) := by
        rw [hlook name, if_pos h0]
      have hm := mem_of_lookup _ _ _ hsome
      have hle := le_listMax _ _ hm
      rw [hdw]
      exact hle
    · rw [hdw]
      omega
  · rw [hvfor, hent.2, heq, hdw]
  · intro name
    rw [hdw]
    constructor
    · intro hmem
      obtain ⟨e', he'mem, he'fst⟩ := List.mem_map.mp hmem
      have hfil := List.mem_filter.mp he'mem
      have hE := hmementry e' hfil.1
      have h2 : e'.2 = listMax (exactCounts votes) := by simpa using hfil.2
      constructor
      · rw [← he'fst, hE.2]
        exact hE.1
      · rw [← he'fst, hE.2, h2]
    · rintro ⟨h0, hcv⟩
      have hsome : tallyLookup (exactCounts votes) name =
          some (countVotes votes name) := by
        rw [hlook name, if_pos h0]
      have hm := mem_of_lookup _ _ _ hsome
      apply List.mem_map.mpr
      refine ⟨(name, countVotes votes name), ?_, rfl⟩
      apply List.mem_filter.mpr
      refine ⟨hm, ?_⟩
      simpa using hcv
  · rw [hdw]
    have hfil : e ∈ (exactCounts votes).filter
        (fun x => x.2 = listMax (exactCounts votes)) := by
      apply List.mem_filter.mpr
      refine ⟨hemem, ?_⟩
      simpa using heq
    exact List.ne_nil_of_mem (List.mem_map_of_mem Prod.fst hfil)

/-- C1 (amended): the tally is a plain JavaScript object, so a voted-for
name that collides with an `Object.prototype` property is mis-handled.
For every non-empty vote sequence whose voted-for names avoid those keys
(neither `__proto__` nor an inherited method name), the tally maps exactly
the names that received at least one vote (case-sensitive exact match,
arbitrary candidate names — the synthesized-plan identifier included) to
their counts, `maxVotes` is the maximum count, the winner set is exactly
the set of candidates whose count equals `maxVotes` (so no tie-break is
applied: every maximal candidate stays in the set), the winner set is
never empty, and the two concrete examples of the specification hold. -/
theorem voteTally_winner (votes : List Vote) (hne : votes ≠ [])
    (hk : ∀ v ∈ votes, v.votedFor ≠ "__proto__" ∧ v.votedFor ∉ protoFns) :
    (∀ name, getOwn (voteCounts votes) name =
      if 0 < countVotes votes name then some (some (countVotes votes name)) else none) ∧
    (∀ name, countVotes votes name ≤ (determineWinner (voteCounts votes)).1) ∧
    (∃ v ∈ votes, countVotes votes v.votedFor = (determineWinner (voteCounts votes)).1) ∧
    (∀ name, name ∈ (determineWinner (voteCounts votes)).2 ↔
      0 < countVotes votes name ∧
        countVotes votes name = (determineWinner (voteCounts votes)).1) ∧
    (determineWinner (voteCounts votes)).2 ≠ [] ∧
    determineWinner (voteCounts
      [⟨"v1", "A", "r"⟩, ⟨"v2", "A", "r"⟩, ⟨"v3", "B", "r"⟩]) = (2, ["A"]) ∧
    determineWinner (voteCounts [⟨"v1", "A", "r"⟩, ⟨"v2", "B", "r"⟩]) = (1, ["A", "B"]) := by
  have heqc : voteCounts votes = mapSome (exactCounts votes) :=
    voteCounts_eq_exact votes hk
  have hold := exactTally_winner votes hne
  rw [heqc, determineWinner_mapSome]
  refine ⟨?_, hold.2.1, hold.2.2.1, hold.2.2.2.1, hold.2.2.2.2, by decide, by decide⟩
  intro name
  rw [getOwn_mapSome, hold.1 name]
  by_cases h0 : 0 < countVotes votes name
  · simp [h0]
  · simp [h0]

/-- Counterexample to C1 as stated: the tally object is a plain JavaScript
object whose key lookups reach `Object.prototype`.  A single vote for
`toString` reads the inherited (truthy) function and stores `NaN`, so the
winner scan skips the entry and the winner set is empty although a vote
was cast; votes for `__proto__` are silently discarded by the inherited
setter, again leaving an empty winner set; and of three votes for
`toString` only two are counted. -/
theorem voteTally_prototype_counterexample :
    voteCounts [(⟨"v1", "toString", "r"⟩ : Vote)] = [("toString", none)] ∧
    determineWinner (voteCounts [(⟨"v1", "toString", "r"⟩ : Vote)]) = (0, []) ∧
    voteCounts [(⟨"v1", "__proto__", "r"⟩ : Vote), ⟨"v2", "__proto__", "r"⟩] = [] ∧
    determineWinner
      (voteCounts [(⟨"v1", "__proto__", "r"⟩ : Vote), ⟨"v2", "__proto__", "r"⟩]) =
      (0, []) ∧
    voteCounts [(⟨"v1", "toString", "r"⟩ : Vote), ⟨"v2", "toString", "r"⟩,
      ⟨"v3", "toString", "r"⟩] = [("toString", some 2)] := by
  decide

/-- Witness for C1 at the first concrete vote sequence of the
specification. -/
theorem voteTally_winner_witness :
    (([(⟨"v1", "A", "r"⟩ : Vote), ⟨"v2", "A", "r"⟩, ⟨"v3", "B", "r"⟩] : List Vote) ≠ []) ∧
    (∀ v ∈ ([(⟨"v1", "A", "r"⟩ : Vote), ⟨"v2", "A", "r"⟩, ⟨"v3", "B", "r"⟩] : List Vote),
      v.votedFor ≠ "__proto__" ∧ v.votedFor ∉ protoFns) ∧
    (determineWinner (voteCounts
      [(⟨"v1", "A", "r"⟩ : Vote), ⟨"v2", "A", "r"⟩, ⟨"v3", "B", "r"⟩])).2 ≠ [] :=
  ⟨by decide, by decide,
   (voteTally_winner [⟨"v1", "A", "r"⟩, ⟨"v2", "A", "r"⟩, ⟨"v3", "B", "r"⟩]
     (by decide) (by decide)).2.2.2.2.1⟩
